import Mathlib

/-!
Shallow embedding of the `@zkpersona/noir-helpers` data-types core
(`src/data-types/field.ts`, `integer.ts`, `bounded-vec.ts`, `zod/index.ts`).

Machine integers (JS `bigint`) are modelled as `Int`; JS `%` on `bigint`
is truncated remainder, i.e. `Int.tmod`; JS `/` on `bigint` is truncated
division, i.e. `Int.tdiv`.  JS `while` loops are modelled as fuel-based
structural recursions with fuel large enough to cover every reachable
iteration count (each such definition is accompanied by a lemma
characterising its value when the fuel suffices).  Fallible code returns
`Except String` carrying the exact `Error` message of the source.
-/
set_option maxRecDepth 10000

deriving instance DecidableEq for Except

/-- Constant `Field.MODULUS` from `field.ts` (the BN254/Grumpkin scalar-field prime),
as a natural number. -/
def MODULUS_N : Nat :=
  21888242871839275222246405745257275088548364400416034343698204186575808495617

/-- Constant `Field.MODULUS` as an integer (JS `bigint`). -/
def PInt : Int := (MODULUS_N : Int)

/-- The upper bound `2^254 - 1` enforced by the zod `FieldValidator`
(`MAX_FIELD` in `zod/index.ts`). -/
def MAXFIELD : Int := 2 ^ 254 - 1

/-- The three runtime shapes accepted by the zod `fieldInputSchema` union:
a JS number that is an integer (fractional numbers are rejected by
`z.number().int()`, so only integral values reach the rest of the pipeline
and we model the branch by an `Int` plus the explicit non-negativity check),
a JS string, and a JS `bigint`. -/
inductive FieldInput where
  | num (n : Int)
  | str (s : String)
  | big (z : Int)

/-- Character class of the regex `[0-9a-fA-F]`. -/
def isHexDigitChar (c : Char) : Bool :=
  c.isDigit || ('a' ≤ c && c ≤ 'f') || ('A' ≤ c && c ≤ 'F')

/-- Test for the regex `/^\d+$/` from `zod/index.ts`. -/
def decMatches (l : List Char) : Bool :=
  !l.isEmpty && l.all Char.isDigit

/-- Test for the regex `/^0x[0-9a-fA-F]+$/` from `zod/index.ts`. -/
def hexMatches (l : List Char) : Bool :=
  match l with
  | '0' :: 'x' :: rest => !rest.isEmpty && rest.all isHexDigitChar
  | _ => false

/-- Numeric value of one digit character (used by the model of JS
`BigInt(string)`). -/
def hexDigitVal (c : Char) : Nat :=
  if c.isDigit then c.toNat - '0'.toNat
  else if 'a' ≤ c && c ≤ 'f' then c.toNat - 'a'.toNat + 10
  else if 'A' ≤ c && c ≤ 'F' then c.toNat - 'A'.toNat + 10
  else 0

/-- Value of a digit string in the given base, most significant digit first. -/
def digitsVal (base : Nat) (l : List Char) : Nat :=
  l.foldl (fun acc c => acc * base + hexDigitVal c) 0

/-- JS `BigInt(s)` on a string matching one of the two accepted regexes:
`0x`-prefixed strings parse as hexadecimal, the rest as decimal. -/
def strToInt (l : List Char) : Int :=
  match l with
  | '0' :: 'x' :: rest => (digitsVal 16 rest : Int)
  | _ => (digitsVal 10 l : Int)

/-- Model of `FieldValidator.parse` from `src/unnamed/part_005` (the current
`zod/index.ts`):  the union checks each branch's own constraints
(numbers must be non-negative integers, strings must match one of the two
regexes, bigints are unconstrained), the transform converts to `bigint`,
and the final refine only checks the upper bound `n ≤ 2^254 - 1` — its
message claims the range `[0, 2^254 - 1]` but the lower bound is never
tested, so negative bigints pass. -/
def fieldValidatorParse : FieldInput → Except String Int
  | .num n =>
    if n < 0 then .error "Field input must be non-negative"
    else if MAXFIELD < n then .error "Field value must be between 0 and 2^254 - 1"
    else .ok n
  | .str s =>
    if hexMatches s.data || decMatches s.data then
      if MAXFIELD < strToInt s.data then
        .error "Field value must be between 0 and 2^254 - 1"
      else .ok (strToInt s.data)
    else .error "String must be a decimal or hexadecimal number"
  | .big z =>
    if MAXFIELD < z then .error "Field value must be between 0 and 2^254 - 1"
    else .ok z

/-- The `Field` constructor (`field.ts` lines 404-407): validate, then store
`parsed % Field.MODULUS`.  JS `%` on bigints is truncated remainder
(`Int.tmod`), which keeps the sign of the dividend. -/
def fieldNew (input : FieldInput) : Except String Int :=
  (fieldValidatorParse input).map (fun parsed => parsed.tmod PInt)

/-- Model of `new Field(z)` on a bigint, the path every internal
`return new Field(...)` takes. -/
def fieldNewBig (z : Int) : Except String Int := fieldNew (.big z)

/-! ### Decimal rendering (`value.toString(10)`) -/
/-- Decimal digit characters of `v`, least significant first (fuel-based). -/
def natDigitsRev : Nat → Nat → List Char
  | 0, _ => []
  | fuel + 1, v => if v = 0 then [] else Char.ofNat (48 + v % 10) :: natDigitsRev fuel (v / 10)

/-- JS `BigInt.prototype.toString(10)` for non-negative values. -/
def natToString (v : Nat) : String :=
  if v = 0 then "0" else String.mk (natDigitsRev 100 v).reverse

/-- JS `BigInt.prototype.toString(10)`, including the sign for negative
values (`Field.toString` in `field.ts`). -/
def intToString (v : Int) : String :=
  if v < 0 then "-" ++ natToString v.natAbs else natToString v.toNat

/-! ### Bit decomposition (`Field.toLeBits` / `Field.toBeBits`) -/
/-- The private `Field.log2` helper: `while (v > 1) { v >>= 1; result += 1 }`,
i.e. the floor of the base-2 logarithm, as a fuel-based loop. -/
def log2Loop : Nat → Nat → Nat
  | 0, _ => 0
  | fuel + 1, v => if v ≤ 1 then 0 else log2Loop fuel (v / 2) + 1

/-- Model of `minLengthRequired` in `toLeBits`/`toBeBits`:
`value === 0 ? 0 : Math.ceil(Number(log2(value)) + 1)` (the ceiling of an
integer is itself). -/
def bitMinLen (v : Nat) : Nat :=
  if v = 0 then 0 else log2Loop 300 v + 1

/-- Model of `Field.toLeBits` (`field.ts` lines 442-458).  A negative stored value
would make the `log2` helper throw, hence the first branch. -/
def toLeBitsFn (v : Int) (len : Nat) : Except String (List Nat) :=
  if v < 0 then .error "log2 is undefined for non-positive values"
  else
    let minReq := bitMinLen v.toNat
    if len < minReq ∨ 254 < len then
      .error ("Length must be between " ++ natToString minReq ++ " and 254")
    else .ok ((List.range len).map (fun i => v.toNat >>> i &&& 1))

/-- Model of `Field.toBeBits` (`field.ts` lines 467-483): same window check, bits
pushed from index `length-1` down to `0`. -/
def toBeBitsFn (v : Int) (len : Nat) : Except String (List Nat) :=
  if v < 0 then .error "log2 is undefined for non-positive values"
  else
    let minReq := bitMinLen v.toNat
    if len < minReq ∨ 254 < len then
      .error ("Length must be between " ++ natToString minReq ++ " and 254")
    else .ok (((List.range len).map (fun i => v.toNat >>> i &&& 1)).reverse)

/-! ### Radix decomposition (`Field.minRadixLength`, `toLeRadix`, `toBeRadix`) -/
/-- The bit-count loop inside `minRadixLength`:
`while (v > 0) { v >>= 1; bits += 1 }`. -/
def bitLenLoop : Nat → Nat → Nat
  | 0, _ => 0
  | fuel + 1, v => if v = 0 then 0 else bitLenLoop fuel (v / 2) + 1

/-- The rounding loop inside `minRadixLength`:
`rounded = 1; while (rounded < rawLen) rounded <<= 1`. -/
def roundUpPow2 : Nat → Nat → Nat → Nat
  | 0, acc, _ => acc
  | fuel + 1, acc, raw => if acc < raw then roundUpPow2 fuel (2 * acc) raw else acc

/-- Model of `Field.minRadixLength` (`field.ts` lines 547-580): rejects negative
values, radixes that are not powers of two (`radix & (radix - 1)` viewed on
naturals, which agrees with the JS check on every non-negative radix) and
radixes below two; note it never checks the documented upper bound 256.
For nonzero values it counts the bits of the value, divides (rounding up)
by `log2(radix)` and rounds the result up to the next power of two. -/
def minRadixLengthFn (v : Int) (radix : Nat) : Except String Nat :=
  if v < 0 then .error "value must be non-negative"
  else if radix &&& (radix - 1) ≠ 0 then .error "radix must be a power of 2"
  else if radix < 2 then .error "radix must be >= 2"
  else if v = 0 then .ok 1
  else
    let radixBits := log2Loop 300 radix
    let bits := bitLenLoop 300 v.toNat
    let rawLen := (bits + radixBits - 1) / radixBits
    .ok (roundUpPow2 20 1 rawLen)

/-- The digit loop of `toLeRadix`/`toBeRadix`:
`digits.push(Number(v % r)); v /= r`, iterated `length` times on the
non-negative stored value. -/
def leDigits (v r : Nat) : Nat → List Nat
  | 0 => []
  | n + 1 => v % r :: leDigits (v / r) r n

/-- Model of `Field.toLeRadix` (`field.ts` lines 590-609). -/
def toLeRadixFn (v : Int) (radix len : Nat) : Except String (List Nat) :=
  match minRadixLengthFn v radix with
  | .error e => .error e
  | .ok minimumRequired =>
    if len < minimumRequired ∨ 256 < len then
      .error ("Length must be between " ++ natToString minimumRequired ++ " and 256")
    else .ok (leDigits v.toNat radix len)

/-- Model of `Field.toBeRadix` (`field.ts` lines 619-638): the same digits, reversed. -/
def toBeRadixFn (v : Int) (radix len : Nat) : Except String (List Nat) :=
  match minRadixLengthFn v radix with
  | .error e => .error e
  | .ok minimumRequired =>
    if len < minimumRequired ∨ 256 < len then
      .error ("Length must be between " ++ natToString minimumRequired ++ " and 256")
    else .ok ((leDigits v.toNat radix len).reverse)

/-- The square-and-multiply loop of `Field.pow32`
(`while (e > 0) { if (e & 1) result = result * b % P; b = b * b % P; e >>= 1 }`). -/
def powLoop : Nat → Int → Int → Nat → Int
  | 0, result, _, _ => result
  | fuel + 1, result, b, e =>
    if e = 0 then result
    else powLoop fuel (if e % 2 = 1 then (result * b).tmod PInt else result)
      ((b * b).tmod PInt) (e / 2)

/-- Model of `Field.pow32` (`field.ts` lines 647-669): rejects negative exponents
and exponents `≥ 2^32`, then runs square-and-multiply on
`this.value % P`. -/
def fieldPow32 (bv ev : Int) : Except String Int :=
  if ev < 0 then .error "Negative exponents are not allowed"
  else if 2 ^ 32 ≤ ev then .error "Exponent too large: exceeds 2^32 limit"
  else fieldNewBig (powLoop 40 1 (bv.tmod PInt) ev.toNat)

/-- Hex digit characters of `v`, least significant first (fuel-based),
lowercase as produced by JS `toString(16)`. -/
def hexDigitsRev : Nat → Nat → List Char
  | 0, _ => []
  | fuel + 1, v =>
    if v = 0 then []
    else
      Char.ofNat (if v % 16 < 10 then 48 + v % 16 else 87 + v % 16)
        :: hexDigitsRev fuel (v / 16)

/-- JS `BigInt.prototype.toString(16)` for non-negative values. -/
def natToHexStr (v : Nat) : String :=
  if v = 0 then "0" else String.mk (hexDigitsRev 100 v).reverse

/-- Model of `Field.toHex` (`field.ts` lines 720-723): `0x` followed by
`value.toString(16)` (a sign would appear between the prefix and the
digits for a negative stored value, as in JS). -/
def fieldToHex (v : Int) : String :=
  if v < 0 then "0x" ++ "-" ++ natToHexStr v.natAbs else "0x" ++ natToHexStr v.toNat

/-! ### Field arithmetic (`Field.add/sub/mul/mod/modInv/div`) -/
/-- Model of `Field.add` (`field.ts` lines 753-759): single conditional reduction
`sum >= MODULUS ? sum - MODULUS : sum`, then the `Field` constructor. -/
def fieldAdd (a b : Int) : Except String Int :=
  fieldNewBig (if PInt ≤ a + b then a + b - PInt else a + b)

/-- Model of `Field.sub` (`field.ts` lines 767-771): `(a - b + P) % P`. -/
def fieldSub (a b : Int) : Except String Int :=
  fieldNewBig ((a - b + PInt).tmod PInt)

/-- Model of `Field.mul` (`field.ts` lines 779-782): `(a * b) % P`. -/
def fieldMul (a b : Int) : Except String Int :=
  fieldNewBig ((a * b).tmod PInt)

/-- Model of `Field.mod` (`field.ts` lines 838-846): `((a % b) + b) % b` after a
zero check. -/
def fieldMod (a b : Int) : Except String Int :=
  if b = 0 then .error "Cannot modulo by zero"
  else fieldNewBig ((a.tmod b + b).tmod b)

/-- The extended-Euclid loop of `Field.modInv`
(`while (newR !== 0) { q = r / newR; [t, newT] = [newT, t - q*newT];
[r, newR] = [newR, r - q*newR] }`), returning the final `(r, t)`.
JS bigint division truncates, hence `Int.tdiv`.  The fuel only has to
exceed `|newR|`, which strictly decreases every iteration. -/
def egcdLoop : Nat → Int → Int → Int → Int → Int × Int
  | 0, t, _, r, _ => (r, t)
  | fuel + 1, t, newT, r, newR =>
    if newR = 0 then (r, t)
    else egcdLoop fuel newT (t - r.tdiv newR * newT) newR (r - r.tdiv newR * newR)

/-- Model of `Field.modInv` (`field.ts` lines 792-808): run the loop from
`t = 0, newT = 1, r = mod, newR = a`, reject `r > 1`, and shift a negative
Bezout coefficient up by the modulus once. -/
def modInvFn (a m : Int) : Except String Int :=
  let res := egcdLoop (a.natAbs + 1) 0 1 m a
  if 1 < res.1 then .error "Input is not invertible"
  else .ok (if res.2 < 0 then res.2 + m else res.2)

/-- Model of `Field.div` (`field.ts` lines 817-829): zero check, modular inverse,
then `(a * inv) % P` wrapped in a new `Field`. -/
def fieldDiv (a b : Int) : Except String Int :=
  if b = 0 then .error "Division by zero"
  else
    match modInvFn b PInt with
    | .error e => .error e
    | .ok inv => fieldNewBig ((a * inv).tmod PInt)

/-! ### Bounded integers (`AbstractInteger` and the eight concrete types) -/
/-- The static data of one concrete `AbstractInteger` subclass:
its `MIN_VALUE` and `MAX_VALUE`. -/
structure IntType where
  MIN : Int
  MAX : Int

def u8Ty : IntType := ⟨0, 255⟩

def u16Ty : IntType := ⟨0, 65535⟩

def u32Ty : IntType := ⟨0, 4294967295⟩

def u64Ty : IntType := ⟨0, 18446744073709551615⟩

def i8Ty : IntType := ⟨-128, 127⟩

def i16Ty : IntType := ⟨-32768, 32767⟩

def i32Ty : IntType := ⟨-2147483648, 2147483647⟩

def i64Ty : IntType := ⟨-9223372036854775808, 9223372036854775807⟩

/-- The zod `IntegerValidator` failure message
(`Value must be in range [min, max]`). -/
def intRangeMsg (ty : IntType) : String :=
  "Value must be in range [" ++ intToString ty.MIN ++ ", " ++ intToString ty.MAX ++ "]"

/-- The `AbstractInteger` constructor on a bigint input (`field.ts` lines
958-963): `super(input)` runs the `Field` constructor (upper-bound check
and `% P`), then `IntegerValidator(min, max).parse(input)` range-checks
the original input.  This is also `newInstance` (lines 944-950), which
re-runs the concrete constructor on the raw stored value. -/
def intNew (ty : IntType) (z : Int) : Except String Int :=
  match fieldNew (.big z) with
  | .error e => .error e
  | .ok v => if z < ty.MIN ∨ ty.MAX < z then .error (intRangeMsg ty) else .ok v

/-- Model of `AbstractInteger.add` (`field.ts` lines 971-973):
`this.newInstance(super.add(other))`. -/
def intAdd (ty : IntType) (a b : Int) : Except String Int :=
  match fieldAdd a b with
  | .error e => .error e
  | .ok v => intNew ty v

/-- Model of `AbstractInteger.sub` (`field.ts` lines 981-983). -/
def intSub (ty : IntType) (a b : Int) : Except String Int :=
  match fieldSub a b with
  | .error e => .error e
  | .ok v => intNew ty v

/-- Model of `AbstractInteger.mul` (`field.ts` lines 991-993). -/
def intMul (ty : IntType) (a b : Int) : Except String Int :=
  match fieldMul a b with
  | .error e => .error e
  | .ok v => intNew ty v

/-- Model of `AbstractInteger.div` (`field.ts` lines 1001-1003). -/
def intDiv (ty : IntType) (a b : Int) : Except String Int :=
  match fieldDiv a b with
  | .error e => .error e
  | .ok v => intNew ty v

/-- Model of `AbstractInteger.mod` (`field.ts` lines 1011-1013):
`return super.mod(other) as this` — a bare type cast, no re-wrap through
the concrete constructor and hence no range re-validation. -/
def intMod (_ty : IntType) (a b : Int) : Except String Int :=
  fieldMod a b

/-- Model of `AbstractInteger.wrappingAdd` (`field.ts` lines 1021-1033): shift
BOTH operands by `-MIN`, add, mask by `range - 1`, shift back by `+MIN`.
The shifted operands `a - MIN`, `b - MIN` and the mask are non-negative
for in-range operands, where JS bigint `&` agrees with `Nat.land`. -/
def intWrappingAdd (ty : IntType) (a b : Int) : Except String Int :=
  let range := ty.MAX - ty.MIN + 1
  let a2 := a - ty.MIN
  let b2 := b - ty.MIN
  let mask := range - 1
  let sum := ((a2 + b2).toNat &&& mask.toNat : Nat)
  intNew ty ((sum : Int) + ty.MIN)

/-- The side conditions that make every concrete integer type small
relative to the field modulus (they hold for all eight concrete types). -/
def wfTy (ty : IntType) : Prop :=
  ty.MIN ≤ 0 ∧ 0 ≤ ty.MAX ∧ 2 * ty.MAX < PInt ∧ -PInt < 2 * ty.MIN

instance (ty : IntType) : Decidable (wfTy ty) := by
  unfold wfTy
  infer_instance

/-! ### Bounded vectors (`bounded-vec.ts`) -/
/-- The mutable state of a `BoundedVec<T>`: fixed capacity, logical
length, and the backing storage of `maxSize` slots. -/
structure BVec (α : Type) where
  maxSize : Nat
  length : Nat
  items : List α
deriving DecidableEq

/-- Model of `BoundedVec.push` (`bounded-vec.ts` lines 116-122): reject when full,
otherwise overwrite slot `length` and increment `length`. -/
def bvPush {α : Type} (v : BVec α) (x : α) : Except String (BVec α) :=
  if v.length = v.maxSize then .error "Vector is full"
  else .ok { v with items := v.items.set v.length x, length := v.length + 1 }

/-- Model of `BoundedVec.pop` (`bounded-vec.ts` lines 144-151): reject when empty,
otherwise return slot `length - 1` (as an optional value — JS array
indexing cannot fail) and decrement `length`; the storage is untouched. -/
def bvPop {α : Type} (v : BVec α) : Except String (Option α × BVec α) :=
  if v.length = 0 then .error "Vector is empty"
  else .ok (v.items.get? (v.length - 1), { v with length := v.length - 1 })

/-- Model of `BoundedVec.set` (`bounded-vec.ts` lines 131-136): bounds-checked
against the logical `length` (the JS `index < 0` branch cannot fire for a
natural-number index). -/
def bvSet {α : Type} (v : BVec α) (i : Nat) (x : α) : Except String (BVec α) :=
  if v.length ≤ i then .error "Index out of bounds"
  else .ok { v with items := v.items.set i x }

/-- Model of `BoundedVec.extendFromArray` (`bounded-vec.ts` lines 159-166):
overflow check first, then one `push` per element. -/
def bvExtendFromArray {α : Type} (v : BVec α) (arr : List α) : Except String (BVec α) :=
  if v.maxSize < v.length + arr.length then .error "Vector overflow"
  else arr.foldlM bvPush v

/-- The `BoundedVec` constructor (`bounded-vec.ts` lines 30-38): fill the
storage with `maxSize` copies of the default, set `length = 0`, then
`extendFromArray(initialItems)` (a negative `maxSize` cannot occur for a
natural number). -/
def bvMk {α : Type} (maxSize : Nat) (dflt : α) (initialItems : List α) :
    Except String (BVec α) :=
  bvExtendFromArray ⟨maxSize, 0, List.replicate maxSize dflt⟩ initialItems

/-- Model of `BoundedVec.toCircuitInputs` (`bounded-vec.ts` lines 194-202): encode
ALL `maxSize` storage slots (no truncation to the logical length) plus the
`len` marker; the per-element encoder stands for
`getInputRepresentation`. -/
def bvToCircuitInputs {α β : Type} (enc : α → β) (v : BVec α) : List β × Nat :=
  (v.items.map enc, v.length)

/-- The `BoundedVec` representation invariant: the logical length never
exceeds the capacity, and the backing storage has exactly `maxSize`
slots. -/
def bvInv {α : Type} (v : BVec α) : Prop :=
  v.length ≤ v.maxSize ∧ v.items.length = v.maxSize

instance {α : Type} [DecidableEq α] (v : BVec α) : Decidable (bvInv v) := by
  unfold bvInv
  infer_instance

/-! ### Primality of the modulus (Lucas certificates)

`Field.div` relies on the modular inverse existing for every nonzero
residue, which holds exactly because `MODULUS_N` is prime.  The primality
proof is a Lucas certificate chain: each large prime in the chain gets a
primitive-root witness and a complete factorisation of `p - 1`, with the
modular powers checked by a fuel-based binary-exponentiation function that
the kernel can evaluate. -/
/-- Binary modular exponentiation `b ^ e % n`, structurally recursive on a
fuel bound so the kernel can evaluate it. -/
def powModNat : Nat → Nat → Nat → Nat → Nat
  | 0, _, _, n => 1 % n
  | fuel + 1, b, e, n =>
    if e = 0 then 1 % n
    else
      let h := powModNat fuel b (e / 2) n
      let h2 := h * h % n
      if e % 2 = 1 then h2 * (b % n) % n else h2

/-- C1.  The claim states that every accepted input is stored reduced into
`[0, P)`.  The bigint branch of `FieldValidator` accepts negative bigints
(its refine only checks the upper bound, contradicting its own error
message "Field value must be between 0 and 2^254 - 1"), and JS `%` keeps
the dividend's sign, so `new Field(-1n)` succeeds and stores the negative
value `-1` — the spec invariant `0 ≤ value < P` fails on it.  This theorem
evaluates the model at that failing input. -/
theorem C1_fieldNew_negative_bigint_accepted :
    fieldNew (FieldInput.big (-1)) = Except.ok (-1) ∧ ((-1 : Int) < 0) :=
  ⟨by decide, by decide⟩

/-- Running `log2Loop` with enough fuel brackets its argument between consecutive
powers of two. -/
theorem log2Loop_bounds : ∀ (fuel v : Nat), 0 < v → v < 2 ^ fuel →
    2 ^ log2Loop fuel v ≤ v ∧ v < 2 ^ (log2Loop fuel v + 1) := by
  intro fuel
  induction fuel with
  | zero => intro v h0 h1; omega
  | succ f ih =>
    intro v h0 h1
    by_cases hv : v ≤ 1
    · have : v = 1 := by omega
      simp [log2Loop, hv, this]
    · have h2 : 0 < v / 2 := by omega
      have h3 : v / 2 < 2 ^ f := by
        rw [pow_succ] at h1; omega
      have := ih (v / 2) h2 h3
      simp only [log2Loop, if_neg hv]
      rw [pow_succ, pow_succ]
      omega

/-- The minimum length accepted by `toLeBits`/`toBeBits` is exactly the
number of bits needed to represent the value: `bitMinLen v ≤ n ↔ v < 2^n`. -/
theorem bitMinLen_le_iff (v n : Nat) (hv : v < 2 ^ 254) :
    bitMinLen v ≤ n ↔ v < 2 ^ n := by
  unfold bitMinLen
  by_cases h0 : v = 0
  · subst h0
    rw [if_pos rfl]
    constructor
    · intro _; positivity
    · intro _; exact Nat.zero_le n
  · rw [if_neg h0]
    have hlt : v < 2 ^ 300 :=
      Nat.lt_of_lt_of_le hv (Nat.pow_le_pow_right (by omega) (by omega))
    obtain ⟨hlo, hhi⟩ := log2Loop_bounds 300 v (by omega) hlt
    constructor
    · intro hle
      exact Nat.lt_of_lt_of_le hhi (Nat.pow_le_pow_right (by omega) hle)
    · intro hvn
      by_contra hcon
      have h1 : n ≤ log2Loop 300 v := by omega
      have h2 : 2 ^ n ≤ 2 ^ log2Loop 300 v := Nat.pow_le_pow_right (by omega) h1
      omega

/-- C6.  For a `FieldElement` value `v` (spec invariant `0 ≤ v < P`),
`toLeBits(n)`/`toBeBits(n)` succeed exactly when `n` lies in the window
`[min, 254]` whose lower end is the smallest number of bits that losslessly
represents the value (`v < 2^n` is equivalent to `min ≤ n`, and `min = 0`
for `v = 0`); on success `toLeBits` returns exactly the binary digits of
`v` least-significant first, and `toBeBits` returns the same list
reversed. -/
theorem C6_toBits_window_and_value (v : Int) (n : Nat)
    (h0 : 0 ≤ v) (hP : v < PInt) :
    ((∃ bs, toLeBitsFn v n = .ok bs) ↔ (v.toNat < 2 ^ n ∧ n ≤ 254))
    ∧ (∀ bs, toLeBitsFn v n = .ok bs →
        bs = (List.range n).map (fun i => v.toNat / 2 ^ i % 2)
        ∧ toBeBitsFn v n = .ok bs.reverse) := by
  have hP2 : v < (MODULUS_N : Int) := hP
  have hvM : v.toNat < MODULUS_N := by omega
  have hvP : v.toNat < 2 ^ 254 := Nat.lt_of_lt_of_le hvM (by decide)
  have hnotneg : ¬ v < 0 := by omega
  have hwin := bitMinLen_le_iff v.toNat n hvP
  have hbits : ((List.range n).map (fun i => v.toNat >>> i &&& 1))
      = (List.range n).map (fun i => v.toNat / 2 ^ i % 2) := by
    refine List.map_congr_left (fun i _ => ?_)
    rw [Nat.shiftRight_eq_div_pow, Nat.and_one_is_mod]
  constructor
  · unfold toLeBitsFn
    rw [if_neg hnotneg]
    by_cases hc : n < bitMinLen v.toNat ∨ 254 < n
    · rw [if_pos hc]
      constructor
      · intro ⟨bs, hbs⟩; exact absurd hbs (by simp)
      · intro ⟨hn1, hn2⟩
        rw [← hwin] at hn1
        omega
    · rw [if_neg hc]
      push_neg at hc
      constructor
      · intro _
        exact ⟨hwin.mp (by omega), by omega⟩
      · intro _
        exact ⟨_, rfl⟩
  · intro bs hbs
    unfold toLeBitsFn at hbs
    rw [if_neg hnotneg] at hbs
    by_cases hc : n < bitMinLen v.toNat ∨ 254 < n
    · rw [if_pos hc] at hbs; exact absurd hbs (by simp)
    · rw [if_neg hc] at hbs
      have hbs2 : bs = (List.range n).map (fun i => v.toNat >>> i &&& 1) := by
        injection hbs with h; exact h.symm
      refine ⟨by rw [hbs2, hbits], ?_⟩
      unfold toBeBitsFn
      rw [if_neg hnotneg, if_neg hc, hbs2]

/-- C6 witness: the spec's Scenario 1, `FieldElement(300).toLeBits(9)`
(and Scenario 2 for `toBeBits`). -/
theorem C6_toBits_witness :
    ((0 : Int) ≤ 300 ∧ (300 : Int) < PInt)
    ∧ ((∃ bs, toLeBitsFn 300 9 = .ok bs) ↔ ((300 : Int).toNat < 2 ^ 9 ∧ 9 ≤ 254))
    ∧ toLeBitsFn 300 9 = Except.ok [0, 0, 1, 1, 0, 1, 0, 0, 1]
    ∧ toBeBitsFn 300 9 = Except.ok [1, 0, 0, 1, 0, 1, 1, 0, 0] :=
  ⟨⟨by decide, by decide⟩,
   (C6_toBits_window_and_value 300 9 (by decide) (by decide)).1,
   by decide, by decide⟩

/-- C4.  The claim says `toLeRadix` fails with `InvalidRadix` exactly when
the radix is not a power of two in `[2,256]`.  The current
`minRadixLength` checks only "power of two" and "at least 2" — the
documented upper bound 256 is never enforced — so radix 512 is accepted:
`Field(300).toLeRadix(512, 1)` returns `[300]` instead of failing.  This
theorem evaluates the model at that failing input. -/
theorem C4_radix512_accepted :
    toLeRadixFn 300 512 1 = Except.ok [300]
    ∧ minRadixLengthFn 300 512 = Except.ok 1 :=
  ⟨by decide, by decide⟩

/-- Running `bitLenLoop` with enough fuel is the exact bit length:
`v < 2^bits` and `2^bits ≤ 2*v` for positive `v`. -/
theorem bitLenLoop_bounds : ∀ (fuel v : Nat), 0 < v → v < 2 ^ fuel →
    v < 2 ^ bitLenLoop fuel v ∧ 2 ^ bitLenLoop fuel v ≤ 2 * v := by
  intro fuel
  induction fuel with
  | zero => intro v h0 h1; omega
  | succ f ih =>
    intro v h0 h1
    have hne : ¬ v = 0 := by omega
    simp only [bitLenLoop, if_neg hne]
    by_cases hv2 : v / 2 = 0
    · have hv1 : v = 1 := by omega
      subst hv1
      have hz : ∀ g, bitLenLoop g 0 = 0 := by
        intro g; cases g <;> simp [bitLenLoop]
      simp [hz]
    · have h2 : 0 < v / 2 := by omega
      have h3 : v / 2 < 2 ^ f := by rw [pow_succ] at h1; omega
      have := ih (v / 2) (by omega) h3
      rw [pow_succ]
      omega

/-- Function `roundUpPow2` returns a value at least as large as its target, given
enough fuel. -/
theorem roundUpPow2_ge : ∀ (fuel acc raw : Nat), 0 < acc →
    raw ≤ acc * 2 ^ fuel → raw ≤ roundUpPow2 fuel acc raw := by
  intro fuel
  induction fuel with
  | zero => intro acc raw h0 h1; simpa [roundUpPow2] using h1
  | succ f ih =>
    intro acc raw h0 h1
    unfold roundUpPow2
    by_cases hlt : acc < raw
    · rw [if_pos hlt]
      refine ih (2 * acc) raw (by omega) ?_
      rw [pow_succ] at h1
      calc raw ≤ acc * (2 ^ f * 2) := h1
        _ = 2 * acc * 2 ^ f := by ring
    · rw [if_neg hlt]; omega

/-- Little-endian digit extraction reassembles to the value modulo
`r ^ length`. -/
theorem leDigits_foldr (r : Nat) : ∀ (n v : Nat),
    (leDigits v r n).foldr (fun d acc => d + r * acc) 0 = v % r ^ n := by
  intro n
  induction n with
  | zero => intro v; simp [leDigits, Nat.mod_one]
  | succ m ih =>
    intro v
    simp only [leDigits, List.foldr_cons, ih (v / r)]
    conv_rhs => rw [pow_succ, Nat.mul_comm (r ^ m) r]
    have hdm := Nat.div_add_mod v r
    have hdm2 := Nat.div_add_mod (v / r) (r ^ m)
    by_cases hr0 : r = 0
    · subst hr0; simp
    · have hlt : v % r + r * (v / r % r ^ m) < r * r ^ m := by
        have h1 : v % r < r := Nat.mod_lt v (by omega)
        have h2 : v / r % r ^ m < r ^ m := Nat.mod_lt _ (Nat.pow_pos (by omega))
        have h4 : r * (v / r % r ^ m + 1) ≤ r * r ^ m :=
          Nat.mul_le_mul_left r (Nat.succ_le_of_lt h2)
        have h5 : r * (v / r % r ^ m + 1) = r * (v / r % r ^ m) + r := by ring
        omega
      have hveq : v = v % r + r * (v / r % r ^ m) + (r * r ^ m) * (v / r / r ^ m) := by
        calc v = r * (v / r) + v % r := by omega
          _ = r * (r ^ m * (v / r / r ^ m) + v / r % r ^ m) + v % r := by rw [hdm2]
          _ = v % r + r * (v / r % r ^ m) + (r * r ^ m) * (v / r / r ^ m) := by ring
      conv_rhs => rw [hveq]
      rw [Nat.add_mul_mod_self_left]
      exact (Nat.mod_eq_of_lt hlt).symm

/-- The accepted length window of `toLeRadix` guarantees that `length`
digits in base `radix` can hold the whole value: the minimum length times
`log2(radix)` covers the bit length of the value. -/
theorem radix_len_bound (w r n : Nat) (hw : 0 < w) (hwlt : w < 2 ^ 254)
    (hr2 : 2 ≤ r) (hr : r ≤ 256)
    (hn : roundUpPow2 20 1 ((bitLenLoop 300 w + log2Loop 300 r - 1) / log2Loop 300 r) ≤ n) :
    w < r ^ n := by
  obtain ⟨hrb_le, hrb_hi⟩ := log2Loop_bounds 300 r (by omega)
    (Nat.lt_of_le_of_lt hr (by norm_num))
  obtain ⟨hb_up, hb_lo⟩ := bitLenLoop_bounds 300 w hw
    (Nat.lt_of_lt_of_le hwlt (Nat.pow_le_pow_right (by omega) (by omega)))
  generalize hrbdef : log2Loop 300 r = rb at hrb_le hrb_hi hn
  generalize hbdef : bitLenLoop 300 w = bits at hb_up hb_lo hn
  have hrb1 : 1 ≤ rb := by
    rcases Nat.eq_zero_or_pos rb with hz | hp
    · exfalso
      rw [hz] at hrb_hi
      have htwo : (2 : Nat) ^ (0 + 1) = 2 := by norm_num
      omega
    · exact hp
  have hrb8 : rb ≤ 8 := by
    by_contra hcon
    have h9 : (2 : Nat) ^ 9 ≤ 2 ^ rb := Nat.pow_le_pow_right (by omega) (by omega)
    have h512 : (512 : Nat) = 2 ^ 9 := by norm_num
    omega
  have hbits255 : bits ≤ 254 := by
    by_contra hcon
    have hpe : (2 : Nat) ^ 255 ≤ 2 ^ bits := Nat.pow_le_pow_right (by omega) (by omega)
    have heq : (2 : Nat) ^ 255 = 2 * 2 ^ 254 := by ring
    omega
  have hceil : bits ≤ ((bits + rb - 1) / rb) * rb := by
    have hdm := Nat.div_add_mod (bits + rb - 1) rb
    have hs : (bits + rb - 1) % rb < rb := Nat.mod_lt _ (by omega)
    rw [Nat.mul_comm]
    omega
  have hraw_small : (bits + rb - 1) / rb ≤ bits + rb - 1 := Nat.div_le_self _ _
  have hround : (bits + rb - 1) / rb ≤ roundUpPow2 20 1 ((bits + rb - 1) / rb) :=
    roundUpPow2_ge 20 1 _ (by omega) (by
      have h1 : bits + rb - 1 ≤ 262 := by omega
      have h2 : (1 : Nat) * 2 ^ 20 = 1048576 := by norm_num
      omega)
  have hn2 : (bits + rb - 1) / rb ≤ n := le_trans hround hn
  calc w < 2 ^ bits := hb_up
    _ ≤ 2 ^ (((bits + rb - 1) / rb) * rb) := Nat.pow_le_pow_right (by omega) hceil
    _ = (2 ^ rb) ^ ((bits + rb - 1) / rb) := by rw [Nat.mul_comm, pow_mul]
    _ ≤ r ^ ((bits + rb - 1) / rb) := Nat.pow_le_pow_left hrb_le _
    _ ≤ r ^ n := Nat.pow_le_pow_right (by omega) hn2

/-- C5.  For every `FieldElement` value (spec invariant `0 ≤ v < P`) and
every `(radix, n)` accepted by `toLeRadix` with a radix in the documented
window, the returned little-endian digits reassemble to the original
value: `Σ digit[i] * radix^i = v` (written as a right fold). -/
theorem C5_toLeRadix_roundtrip (v : Int) (r n : Nat) (ds : List Nat)
    (h0 : 0 ≤ v) (hP : v < PInt) (hr : r ≤ 256)
    (h : toLeRadixFn v r n = .ok ds) :
    ds.foldr (fun d acc => d + r * acc) 0 = v.toNat := by
  cases hmin : minRadixLengthFn v r with
  | error e =>
    rw [toLeRadixFn, hmin] at h
    exact absurd h (by simp)
  | ok minReq =>
    rw [toLeRadixFn, hmin] at h
    have h2 : (if n < minReq ∨ 256 < n then
        (Except.error ("Length must be between " ++ natToString minReq ++ " and 256")
          : Except String (List Nat))
      else Except.ok (leDigits v.toNat r n)) = Except.ok ds := h
    by_cases hlen : n < minReq ∨ 256 < n
    · rw [if_pos hlen] at h2; exact absurd h2 (by simp)
    rw [if_neg hlen] at h2
    push_neg at hlen
    injection h2 with h2
    rw [← h2, leDigits_foldr]
    -- extract the radix facts from the successful minRadixLength call
    unfold minRadixLengthFn at hmin
    rw [if_neg (by omega : ¬ v < 0)] at hmin
    by_cases hpw : r &&& (r - 1) ≠ 0
    · rw [if_pos hpw] at hmin; exact absurd hmin (by simp)
    rw [if_neg hpw] at hmin
    by_cases hr2 : r < 2
    · rw [if_pos hr2] at hmin; exact absurd hmin (by simp)
    rw [if_neg hr2] at hmin
    push_neg at hr2
    by_cases hv0 : v = 0
    · subst hv0
      simp [Nat.zero_mod]
    · rw [if_neg hv0] at hmin
      injection hmin with hmin
      refine Nat.mod_eq_of_lt ?_
      have hP2 : v < (MODULUS_N : Int) := hP
      have hwM : v.toNat < MODULUS_N := by omega
      refine radix_len_bound v.toNat r n (by omega)
        (Nat.lt_of_lt_of_le hwM (by decide)) hr2 hr ?_
      rw [hmin]
      exact hlen.1

/-- C5 witness: the digits of `Field(300).toLeRadix(2, 16)` (the value
tested in the repository's own test-suite) reassemble to 300. -/
theorem C5_toLeRadix_roundtrip_witness :
    ((0 : Int) ≤ 300 ∧ (300 : Int) < PInt ∧ (2 : Nat) ≤ 256)
    ∧ toLeRadixFn 300 2 16 = Except.ok [0, 0, 1, 1, 0, 1, 0, 0, 1, 0, 0, 0, 0, 0, 0, 0]
    ∧ ([0, 0, 1, 1, 0, 1, 0, 0, 1, 0, 0, 0, 0, 0, 0, 0] : List Nat).foldr
        (fun d acc => d + 2 * acc) 0 = (300 : Int).toNat :=
  ⟨⟨by decide, by decide, by decide⟩, by decide,
   C5_toLeRadix_roundtrip 300 2 16 _ (by decide) (by decide) (by decide) (by decide)⟩

/-! ### Modular exponentiation (`Field.pow32`) and hex rendering -/
/-- Truncated remainder is the identity on values already strictly between
`-m` and `m` (the JS `%` analogue of "already reduced"). -/
theorem tmod_eq_self_of_bounds {x m : Int} (h1 : -m < x) (h2 : x < m) :
    x.tmod m = x := by
  rcases le_or_lt 0 x with hx | hx
  · exact Int.tmod_eq_of_lt hx h2
  · have habs : x.natAbs < m.natAbs := by omega
    have hdiv : (x.tdiv m).natAbs = 0 := by
      rw [Int.natAbs_tdiv]
      exact Nat.div_eq_of_lt habs
    have hdiv0 : x.tdiv m = 0 := Int.natAbs_eq_zero.mp hdiv
    rw [Int.tmod_def, hdiv0]
    ring

/-- The modulus `PInt` is positive (it is a 254-bit prime). -/
theorem PInt_pos : 0 < PInt := by decide

/-- With enough fuel, the square-and-multiply loop computes
`res * b ^ e mod P` for reduced non-negative `res` and `b`. -/
theorem powLoop_eq : ∀ (fuel : Nat) (e : Nat), e < 2 ^ fuel →
    ∀ (res b : Int), 0 ≤ res → res < PInt → 0 ≤ b → b < PInt →
    powLoop fuel res b e = (res * b ^ e) % PInt := by
  intro fuel
  induction fuel with
  | zero =>
    intro e he res b hr0 hrP hb0 hbP
    have : e = 0 := by simpa using Nat.lt_one_iff.mp he
    subst this
    simp only [powLoop, pow_zero, mul_one]
    exact (Int.emod_eq_of_lt hr0 hrP).symm
  | succ f ih =>
    intro e he res b hr0 hrP hb0 hbP
    by_cases he0 : e = 0
    · subst he0
      simp only [powLoop, if_pos rfl, pow_zero, mul_one]
      exact (Int.emod_eq_of_lt hr0 hrP).symm
    · simp only [powLoop, if_neg he0]
      have hediv : e / 2 < 2 ^ f := by
        rw [pow_succ] at he
        omega
      have hb2 : (b * b).tmod PInt = (b * b) % PInt :=
        Int.tmod_eq_emod (mul_nonneg hb0 hb0) PInt_pos.le
      have hb2n : 0 ≤ (b * b).tmod PInt := by
        rw [hb2]; exact Int.emod_nonneg _ (by decide)
      have hb2P : (b * b).tmod PInt < PInt := by
        rw [hb2]; exact Int.emod_lt_of_pos _ PInt_pos
      set res2 : Int := if e % 2 = 1 then (res * b).tmod PInt else res with hres2
      have hrb : (res * b).tmod PInt = (res * b) % PInt :=
        Int.tmod_eq_emod (mul_nonneg hr0 hb0) PInt_pos.le
      have hr2n : 0 ≤ res2 := by
        rw [hres2]
        split
        · rw [hrb]; exact Int.emod_nonneg _ (by decide)
        · exact hr0
      have hr2P : res2 < PInt := by
        rw [hres2]
        split
        · rw [hrb]; exact Int.emod_lt_of_pos _ PInt_pos
        · exact hrP
      rw [ih (e / 2) hediv res2 _ hr2n hr2P hb2n hb2P]
      -- both sides agree modulo P
      have hmod1 : res2 ≡ res * b ^ (e % 2) [ZMOD PInt] := by
        rw [hres2]
        rcases Nat.mod_two_eq_zero_or_one e with hpar | hpar
        · rw [hpar]
          simp [Int.ModEq.refl]
        · rw [hpar, if_pos rfl, hrb, pow_one]
          exact Int.emod_emod_of_dvd _ dvd_rfl
      have hmod2 : (b * b).tmod PInt ≡ b * b [ZMOD PInt] := by
        rw [hb2]
        exact Int.emod_emod_of_dvd _ dvd_rfl
      have hpow : res2 * ((b * b).tmod PInt) ^ (e / 2)
          ≡ res * b ^ e [ZMOD PInt] := by
        calc res2 * ((b * b).tmod PInt) ^ (e / 2)
            ≡ (res * b ^ (e % 2)) * (b * b) ^ (e / 2) [ZMOD PInt] :=
              Int.ModEq.mul hmod1 (Int.ModEq.pow _ hmod2)
          _ = res * b ^ e := by
              have hsplit : b ^ (e % 2) * (b ^ 2) ^ (e / 2) = b ^ e := by
                rw [← pow_mul, ← pow_add, Nat.mod_add_div]
              rw [← hsplit]
              ring
      exact hpow

/-- C7.  `pow32` fails with `NegativeExponent` exactly when the exponent's
stored value is negative, fails with `ExponentTooLarge` exactly when it is
`≥ 2^32`, and otherwise returns `base^e mod P` (computed by the
square-and-multiply loop). -/
theorem C7_pow32_cases (b e : Int) (hb0 : 0 ≤ b) (hbP : b < PInt) :
    (e < 0 → fieldPow32 b e = .error "Negative exponents are not allowed")
    ∧ (0 ≤ e → 2 ^ 32 ≤ e → fieldPow32 b e = .error "Exponent too large: exceeds 2^32 limit")
    ∧ (0 ≤ e → e < 2 ^ 32 → fieldPow32 b e = .ok ((b ^ e.toNat) % PInt)) := by
  refine ⟨fun hneg => ?_, fun _ hbig => ?_, fun he0 hlt => ?_⟩
  · rw [fieldPow32, if_pos hneg]
  · rw [fieldPow32, if_neg (by omega), if_pos hbig]
  · rw [fieldPow32, if_neg (by omega), if_neg (by omega)]
    have hbred : b.tmod PInt = b := tmod_eq_self_of_bounds (by omega) hbP
    have hfuel : e.toNat < 2 ^ 40 := by
      have h32 : (2 : Int) ^ 32 = ((2 ^ 32 : Nat) : Int) := by norm_num
      have h40 : (2 : Nat) ^ 32 ≤ 2 ^ 40 := by norm_num
      omega
    rw [hbred, powLoop_eq 40 e.toNat hfuel 1 b (by omega) (by decide) hb0 hbP,
      one_mul]
    have hin : 0 ≤ (b ^ e.toNat) % PInt ∧ (b ^ e.toNat) % PInt < PInt :=
      ⟨Int.emod_nonneg _ (by decide), Int.emod_lt_of_pos _ PInt_pos⟩
    rw [fieldNewBig, fieldNew]
    have hmax : ¬ MAXFIELD < (b ^ e.toNat) % PInt := by
      have hPM : PInt - 1 ≤ MAXFIELD := by decide
      omega
    simp only [fieldValidatorParse, if_neg hmax, Except.map]
    rw [tmod_eq_self_of_bounds (by omega) hin.2]

/-- C7 witness: Scenario 5 — `FieldElement(2).pow32(FieldElement(2^32-1))`
equals the documented 254-bit constant, whose hex rendering is
`0x4aa46b15346c19ec569802276feb4778e1921469782ef1287716e7712fb8f70`. -/
theorem C7_pow32_witness :
    ((0 : Int) ≤ 2 ∧ (2 : Int) < PInt)
    ∧ fieldPow32 2 (2 ^ 32 - 1) = Except.ok (((2 : Int) ^ ((2 ^ 32 - 1 : Int)).toNat) % PInt)
    ∧ fieldPow32 2 (2 ^ 32 - 1) =
        Except.ok 2110103298270253988559335970394985871919866291293341129719435089837968559984
    ∧ fieldToHex 2110103298270253988559335970394985871919866291293341129719435089837968559984
        = "0x4aa46b15346c19ec569802276feb4778e1921469782ef1287716e7712fb8f70" :=
  ⟨⟨by decide, by decide⟩,
   (C7_pow32_cases 2 (2 ^ 32 - 1) (by decide) (by decide)).2.2 (by decide) (by decide),
   by decide, by decide⟩

/-- C2 counterexample: the claim says `add` on a bounded integer never
fails with an out-of-range error, but `U8(200).add(U8(100))` throws
`Value must be in range [0, 255]` — `newInstance` re-runs the concrete
constructor, whose `IntegerValidator` rejects the mod-P result 300. -/
theorem C2_counterexample_u8_add_overflow_fails :
    intAdd u8Ty 200 100 = Except.error "Value must be in range [0, 255]" := by
  decide

/-- C3.  The claim says `wrappingAdd` is congruent to `a + b` modulo
`range` shifted into `[MIN, MAX]`.  The implementation shifts BOTH
operands by `-MIN` before reducing, so for signed types the result is
off by `-MIN`: `I8(0).wrappingAdd(I8(0))` yields `-128`, not `0`
(there is no overflow at all to wrap).  For unsigned types (`MIN = 0`)
the double shift is invisible, so the `U8` scenario still holds:
`U8(100).wrappingAdd(U8(200))` is `44` and prints `"44"`.  This theorem
evaluates the model at the failing input and at the scenario. -/
theorem C3_wrappingAdd_signed_bug :
    intWrappingAdd i8Ty 0 0 = Except.ok (-128)
    ∧ intWrappingAdd u8Ty 100 200 = Except.ok 44
    ∧ intToString 44 = "44" :=
  ⟨by decide, by decide, by decide⟩

/-- Truncated remainder commutes with negation of the dividend. -/
theorem neg_tmod (a b : Int) : (-a).tmod b = -(a.tmod b) := by
  rw [Int.tmod_def, Int.tmod_def, Int.neg_tdiv]
  ring

/-- Two-sided bound for truncated remainder by a positive modulus. -/
theorem tmod_bounds (a m : Int) (hm : 0 < m) :
    -m < a.tmod m ∧ a.tmod m < m := by
  rcases le_or_lt 0 a with ha | ha
  · exact ⟨lt_of_lt_of_le (by omega) (Int.tmod_nonneg m ha), Int.tmod_lt_of_pos a hm⟩
  · have h1 : a.tmod m = -((-a).tmod m) := by rw [neg_tmod]; ring
    have h2 : (-a).tmod m < m := Int.tmod_lt_of_pos (-a) hm
    have h3 : 0 ≤ (-a).tmod m := Int.tmod_nonneg m (by omega)
    omega

/-- The modulus is below the validator bound: `P - 1 ≤ 2^254 - 1`. -/
theorem PInt_le_MAXFIELD : PInt - 1 ≤ MAXFIELD := by decide

/-- A value already reduced strictly between `-P` and `P` passes the
`Field` constructor unchanged. -/
theorem fieldNewBig_reduced (r : Int) (h1 : -PInt < r) (h2 : r < PInt) :
    fieldNewBig r = .ok r := by
  unfold fieldNewBig fieldNew
  simp only [fieldValidatorParse]
  have hmx : ¬ MAXFIELD < r := by
    have := PInt_le_MAXFIELD
    omega
  rw [if_neg hmx]
  simp only [Except.map]
  rw [tmod_eq_self_of_bounds h1 h2]

/-- Whatever the `Field` constructor accepts, the stored value lies
strictly between `-P` and `P`. -/
theorem fieldNewBig_ok_bounds (x q : Int) (h : fieldNewBig x = .ok q) :
    -PInt < q ∧ q < PInt := by
  unfold fieldNewBig fieldNew at h
  simp only [fieldValidatorParse] at h
  by_cases hmx : MAXFIELD < x
  · rw [if_pos hmx] at h
    exact absurd h (by simp [Except.map])
  · rw [if_neg hmx] at h
    simp only [Except.map] at h
    injection h with h
    have hb := tmod_bounds x PInt (by decide)
    omega

/-- The concrete-integer constructor on a reduced value: the `Field` part
always succeeds and stores the value unchanged, so only the
`IntegerValidator` range check decides the outcome. -/
theorem intNew_reduced (ty : IntType) (r : Int) (h1 : -PInt < r) (h2 : r < PInt) :
    intNew ty r =
      if r < ty.MIN ∨ ty.MAX < r then .error (intRangeMsg ty) else .ok r := by
  have hf : fieldNew (.big r) = .ok r := fieldNewBig_reduced r h1 h2
  unfold intNew
  rw [hf]

/-- C2 amended.  `add`, `sub`, `mul` and `div` on a bounded integer
compute the result with `FieldElement` arithmetic modulo P (not modulo the
type's own range) and re-wrap it through the concrete constructor, which
re-validates the static bounds — so a result exceeding `[MIN, MAX]` but
still below P fails with the out-of-range error rather than being
accepted; only `mod` delegates to the field operation with a bare cast and
performs no range re-validation. -/
theorem C2_int_arith_mod_P_range_revalidated (ty : IntType) (hwf : wfTy ty)
    (a b : Int) (ha1 : ty.MIN ≤ a) (ha2 : a ≤ ty.MAX)
    (hb1 : ty.MIN ≤ b) (hb2 : b ≤ ty.MAX) :
    intAdd ty a b = (if a + b < ty.MIN ∨ ty.MAX < a + b
        then Except.error (intRangeMsg ty) else Except.ok (a + b))
    ∧ intSub ty a b = (if (a - b + PInt).tmod PInt < ty.MIN ∨ ty.MAX < (a - b + PInt).tmod PInt
        then Except.error (intRangeMsg ty) else Except.ok ((a - b + PInt).tmod PInt))
    ∧ intMul ty a b = (if (a * b).tmod PInt < ty.MIN ∨ ty.MAX < (a * b).tmod PInt
        then Except.error (intRangeMsg ty) else Except.ok ((a * b).tmod PInt))
    ∧ intDiv ty a b = (fieldDiv a b).bind (fun q =>
        if q < ty.MIN ∨ ty.MAX < q then Except.error (intRangeMsg ty) else Except.ok q)
    ∧ intMod ty a b = fieldMod a b := by
  obtain ⟨hm0, hx0, hxP, hmP⟩ := hwf
  refine ⟨?_, ?_, ?_, ?_, rfl⟩
  · -- add
    have hs1 : a + b < PInt := by omega
    have hs2 : -PInt < a + b := by omega
    have hfa : fieldAdd a b = .ok (a + b) := by
      rw [fieldAdd, if_neg (by omega)]
      exact fieldNewBig_reduced _ hs2 hs1
    unfold intAdd
    rw [hfa]
    exact intNew_reduced ty (a + b) hs2 hs1
  · -- sub
    have hb := tmod_bounds (a - b + PInt) PInt (by decide)
    have hfs : fieldSub a b = .ok ((a - b + PInt).tmod PInt) := by
      rw [fieldSub]
      exact fieldNewBig_reduced _ hb.1 hb.2
    unfold intSub
    rw [hfs]
    exact intNew_reduced ty _ hb.1 hb.2
  · -- mul
    have hb := tmod_bounds (a * b) PInt (by decide)
    have hfm : fieldMul a b = .ok ((a * b).tmod PInt) := by
      rw [fieldMul]
      exact fieldNewBig_reduced _ hb.1 hb.2
    unfold intMul
    rw [hfm]
    exact intNew_reduced ty _ hb.1 hb.2
  · -- div
    cases hfd : fieldDiv a b with
    | error e =>
      unfold intDiv
      rw [hfd]
      rfl
    | ok q =>
      have hq : -PInt < q ∧ q < PInt := by
        unfold fieldDiv at hfd
        by_cases hb0 : b = 0
        · rw [if_pos hb0] at hfd
          exact absurd hfd (by simp)
        · rw [if_neg hb0] at hfd
          cases hinv : modInvFn b PInt with
          | error e => rw [hinv] at hfd; exact absurd hfd (by simp)
          | ok inv =>
            rw [hinv] at hfd
            exact fieldNewBig_ok_bounds _ _ hfd
      unfold intDiv
      rw [hfd]
      exact intNew_reduced ty q hq.1 hq.2

/-- C2 witness: the amended claim at `U8`, `a = 100`, `b = 20`. -/
theorem C2_int_arith_witness :
    (wfTy u8Ty ∧ u8Ty.MIN ≤ 100 ∧ (100 : Int) ≤ u8Ty.MAX
      ∧ u8Ty.MIN ≤ 20 ∧ (20 : Int) ≤ u8Ty.MAX)
    ∧ (intAdd u8Ty 100 20 = (if (100 : Int) + 20 < u8Ty.MIN ∨ u8Ty.MAX < (100 : Int) + 20
          then Except.error (intRangeMsg u8Ty) else Except.ok (100 + 20))
        ∧ intSub u8Ty 100 20 = (if ((100 : Int) - 20 + PInt).tmod PInt < u8Ty.MIN
              ∨ u8Ty.MAX < ((100 : Int) - 20 + PInt).tmod PInt
            then Except.error (intRangeMsg u8Ty)
            else Except.ok (((100 : Int) - 20 + PInt).tmod PInt))
        ∧ intMul u8Ty 100 20 = (if ((100 : Int) * 20).tmod PInt < u8Ty.MIN
              ∨ u8Ty.MAX < ((100 : Int) * 20).tmod PInt
            then Except.error (intRangeMsg u8Ty)
            else Except.ok (((100 : Int) * 20).tmod PInt))
        ∧ intDiv u8Ty 100 20 = (fieldDiv 100 20).bind (fun q =>
            if q < u8Ty.MIN ∨ u8Ty.MAX < q
            then Except.error (intRangeMsg u8Ty) else Except.ok q)
        ∧ intMod u8Ty 100 20 = fieldMod 100 20) :=
  ⟨⟨by decide, by decide, by decide, by decide, by decide⟩,
   C2_int_arith_mod_P_range_revalidated u8Ty (by decide) 100 20
     (by decide) (by decide) (by decide) (by decide)⟩

/-- A successful `push` preserves the invariant. -/
theorem bvPush_inv {α : Type} (v : BVec α) (x : α) (hv : bvInv v)
    (w : BVec α) (h : bvPush v x = .ok w) : bvInv w := by
  unfold bvPush at h
  by_cases hf : v.length = v.maxSize
  · rw [if_pos hf] at h; exact absurd h (by simp)
  · rw [if_neg hf] at h
    injection h with h
    obtain ⟨h1, h2⟩ := hv
    have hle : v.length + 1 ≤ v.maxSize := by omega
    have hst : (v.items.set v.length x).length = v.maxSize := by
      rw [List.length_set]; exact h2
    rw [← h]
    exact ⟨hle, hst⟩

/-- The `push` loop of `extendFromArray` preserves the invariant. -/
theorem bvFold_inv {α : Type} : ∀ (arr : List α) (v : BVec α), bvInv v →
    ∀ w, List.foldlM bvPush v arr = .ok w → bvInv w := by
  intro arr
  induction arr with
  | nil =>
    intro v hv w h
    have h2 : (Except.ok v : Except String (BVec α)) = Except.ok w := h
    injection h2 with h2
    rw [← h2]
    exact hv
  | cons y ys ih =>
    intro v hv w h
    simp only [List.foldlM_cons] at h
    cases hp : bvPush v y with
    | error e =>
      rw [hp] at h
      have h3 : (Except.error e : Except String (BVec α)) = Except.ok w := h
      exact absurd h3 (by simp)
    | ok v2 =>
      rw [hp] at h
      exact ih v2 (bvPush_inv v y hv v2 hp) w h

/-- C9.  `0 ≤ length ≤ maxSize` holds after construction and is preserved
by `push`, `pop`, `set` and `extendFromArray`; `push` fails with the
container-full error exactly when `length = maxSize`, and `pop` fails with
the container-empty error exactly when `length = 0`. -/
theorem C9_bounded_container_invariant {α : Type} (v : BVec α) (hv : bvInv v)
    (x : α) (i : Nat) (arr : List α) (ms : Nat) (d : α) (init : List α) :
    (∀ w, bvMk ms d init = .ok w → bvInv w)
    ∧ (bvPush v x = .error "Vector is full" ↔ v.length = v.maxSize)
    ∧ (∀ w, bvPush v x = .ok w → bvInv w)
    ∧ (bvPop v = .error "Vector is empty" ↔ v.length = 0)
    ∧ (∀ p, bvPop v = .ok p → bvInv p.2)
    ∧ (∀ w, bvSet v i x = .ok w → bvInv w)
    ∧ (∀ w, bvExtendFromArray v arr = .ok w → bvInv w) := by
  have hext : ∀ (u : BVec α) (l : List α), bvInv u →
      ∀ w, bvExtendFromArray u l = .ok w → bvInv w := by
    intro u l hu w h
    unfold bvExtendFromArray at h
    split at h
    · exact absurd h (by simp)
    · exact bvFold_inv l u hu w h
  refine ⟨?_, ?_, fun w => bvPush_inv v x hv w, ?_, ?_, ?_, hext v arr hv⟩
  · intro w h
    have hinv0 : bvInv (⟨ms, 0, List.replicate ms d⟩ : BVec α) :=
      ⟨Nat.zero_le ms, by simp⟩
    exact hext _ init hinv0 w h
  · unfold bvPush
    by_cases hf : v.length = v.maxSize
    · rw [if_pos hf]; simpa using hf
    · rw [if_neg hf]
      constructor
      · intro h; exact absurd h (by simp)
      · intro h; exact absurd h hf
  · unfold bvPop
    by_cases he : v.length = 0
    · rw [if_pos he]; simpa using he
    · rw [if_neg he]
      constructor
      · intro h; exact absurd h (by simp)
      · intro h; exact absurd h he
  · intro p h
    unfold bvPop at h
    by_cases he : v.length = 0
    · rw [if_pos he] at h; exact absurd h (by simp)
    · rw [if_neg he] at h
      injection h with h
      obtain ⟨h1, h2⟩ := hv
      have hle : v.length - 1 ≤ v.maxSize := by omega
      rw [← h]
      exact ⟨hle, h2⟩
  · intro w h
    unfold bvSet at h
    by_cases hb : v.length ≤ i
    · rw [if_pos hb] at h; exact absurd h (by simp)
    · rw [if_neg hb] at h
      injection h with h
      have hst : (v.items.set i x).length = v.maxSize := by
        rw [List.length_set]; exact hv.2
      rw [← h]
      exact ⟨hv.1, hst⟩

/-- C9 witness: Scenario 6 — a capacity-2 container accepts two pushes and
fails the third with the container-full error. -/
theorem C9_bounded_container_witness :
    bvInv (⟨2, 2, [1, 2]⟩ : BVec Int)
    ∧ bvMk 2 (0 : Int) [] = Except.ok ⟨2, 0, [0, 0]⟩
    ∧ bvPush (⟨2, 0, [0, 0]⟩ : BVec Int) 1 = Except.ok ⟨2, 1, [1, 0]⟩
    ∧ bvPush (⟨2, 1, [1, 0]⟩ : BVec Int) 2 = Except.ok ⟨2, 2, [1, 2]⟩
    ∧ (bvPush (⟨2, 2, [1, 2]⟩ : BVec Int) 3 = Except.error "Vector is full"
        ↔ (⟨2, 2, [1, 2]⟩ : BVec Int).length = (⟨2, 2, [1, 2]⟩ : BVec Int).maxSize)
    ∧ bvPush (⟨2, 2, [1, 2]⟩ : BVec Int) 3 = Except.error "Vector is full" :=
  ⟨by decide, by decide, by decide, by decide,
   (C9_bounded_container_invariant (⟨2, 2, [1, 2]⟩ : BVec Int) (by decide)
     3 0 [] 2 0 []).2.1,
   by decide⟩

/-- C10.  `pop` on a non-empty vector only decrements the length field:
the backing storage, including the popped slot, is untouched, so the
encoded circuit-input storage after the pop is identical to the one before
and still exposes the popped element's encoded value at index
`length - 1`; the slot is only overwritten by a subsequent `push`. -/
theorem C10_pop_leaves_storage {α β : Type} (v : BVec α)
    (p : Option α × BVec α) (enc : α → β)
    (hv : bvInv v) (hok : bvPop v = .ok p) :
    p.2.items = v.items
    ∧ p.2.maxSize = v.maxSize
    ∧ p.2.length + 1 = v.length
    ∧ (bvToCircuitInputs enc p.2).1 = (bvToCircuitInputs enc v).1
    ∧ (∃ x, p.1 = some x
        ∧ (bvToCircuitInputs enc p.2).1.get? p.2.length = some (enc x))
    ∧ (∀ y w, bvPush p.2 y = .ok w → w.items = p.2.items.set p.2.length y) := by
  unfold bvPop at hok
  by_cases he : v.length = 0
  · rw [if_pos he] at hok
    exact absurd hok (by simp)
  · rw [if_neg he] at hok
    injection hok with hok
    obtain ⟨hlen, hstore⟩ := hv
    have hidx : v.length - 1 < v.items.length := by omega
    have hdec : (v.length - 1) + 1 = v.length := by omega
    have hsome : v.items.get? (v.length - 1) = some (v.items.get ⟨v.length - 1, hidx⟩) :=
      List.get?_eq_get hidx
    refine ⟨by rw [← hok], by rw [← hok], by rw [← hok]; exact hdec,
      by rw [← hok]; rfl, ?_, ?_⟩
    · refine ⟨v.items.get ⟨v.length - 1, hidx⟩, ?_, ?_⟩
      · rw [← hok]
        exact hsome
      · rw [← hok]
        show (v.items.map enc).get? (v.length - 1) = some (enc _)
        rw [List.get?_map, hsome]
        rfl
    · intro y w hw
      unfold bvPush at hw
      by_cases hf : p.2.length = p.2.maxSize
      · exfalso
        rw [← hok] at hf
        simp only at hf
        omega
      · rw [if_neg hf] at hw
        injection hw with hw
        rw [← hw]

/-- C10 witness: popping from a full capacity-2 vector `[5, 7]` leaves the
encoded storage `[5, 7]` (under the identity encoder) with the popped
element still exposed at index 1. -/
theorem C10_pop_leaves_storage_witness :
    (bvInv (⟨2, 2, [5, 7]⟩ : BVec Int)
      ∧ bvPop (⟨2, 2, [5, 7]⟩ : BVec Int) = Except.ok (some 7, ⟨2, 1, [5, 7]⟩))
    ∧ ((⟨2, 1, [5, 7]⟩ : BVec Int).items = (⟨2, 2, [5, 7]⟩ : BVec Int).items
      ∧ (⟨2, 1, [5, 7]⟩ : BVec Int).maxSize = (⟨2, 2, [5, 7]⟩ : BVec Int).maxSize
      ∧ (⟨2, 1, [5, 7]⟩ : BVec Int).length + 1 = (⟨2, 2, [5, 7]⟩ : BVec Int).length
      ∧ (bvToCircuitInputs (fun z : Int => z) (⟨2, 1, [5, 7]⟩ : BVec Int)).1
          = (bvToCircuitInputs (fun z : Int => z) (⟨2, 2, [5, 7]⟩ : BVec Int)).1
      ∧ (∃ x, (some (7 : Int), (⟨2, 1, [5, 7]⟩ : BVec Int)).1 = some x
          ∧ (bvToCircuitInputs (fun z : Int => z) (⟨2, 1, [5, 7]⟩ : BVec Int)).1.get?
              (⟨2, 1, [5, 7]⟩ : BVec Int).length = some ((fun z : Int => z) x))
      ∧ (∀ y w, bvPush (⟨2, 1, [5, 7]⟩ : BVec Int) y = .ok w →
          w.items = (⟨2, 1, [5, 7]⟩ : BVec Int).items.set
            (⟨2, 1, [5, 7]⟩ : BVec Int).length y)) :=
  ⟨⟨by decide, by decide⟩,
   C10_pop_leaves_storage (⟨2, 2, [5, 7]⟩ : BVec Int)
     (some 7, ⟨2, 1, [5, 7]⟩) (fun z : Int => z) (by decide) (by decide)⟩

/-- Function `powModNat` computes modular exponentiation when the fuel dominates
the exponent's bit count. -/
theorem powModNat_correct : ∀ (fuel b e n : Nat), 0 < n → e < 2 ^ fuel →
    powModNat fuel b e n = b ^ e % n := by
  intro fuel
  induction fuel with
  | zero =>
    intro b e n hn he
    have he0 : e = 0 := by simpa using Nat.lt_one_iff.mp he
    subst he0
    simp [powModNat]
  | succ f ih =>
    intro b e n hn he
    by_cases he0 : e = 0
    · subst he0
      simp [powModNat]
    · simp only [powModNat, if_neg he0]
      have hediv : e / 2 < 2 ^ f := by
        rw [pow_succ] at he
        omega
      rw [ih b (e / 2) n hn hediv]
      rcases Nat.mod_two_eq_zero_or_one e with hpar | hpar
      · rw [hpar]
        norm_num
        rw [← pow_add]
        congr 2
        omega
      · rw [hpar, if_pos rfl]
        rw [← Nat.mul_mod (b ^ (e / 2)) (b ^ (e / 2)) n,
          ← Nat.mul_mod (b ^ (e / 2) * b ^ (e / 2)) b n,
          ← pow_add, ← pow_succ]
        congr 2
        omega

/-- Transport a `powModNat` computation into `ZMod p`. -/
theorem castPow_eq (p g e v : Nat) (hp : 0 < p) (he : e < 2 ^ 260)
    (hv : powModNat 260 g e p = v) :
    ((g : Nat) : ZMod p) ^ e = ((v : Nat) : ZMod p) := by
  rw [← Nat.cast_pow]
  refine (ZMod.natCast_eq_natCast_iff _ _ _).mpr ?_
  show g ^ e % p = v % p
  rw [← hv, powModNat_correct 260 g e p hp he]
  exact (Nat.mod_mod_of_dvd _ dvd_rfl).symm

/-- A Lucas certificate power check that succeeds (`g^(p-1) = 1`). -/
theorem lucas_pow_eq_one (p g e : Nat) (hp : 0 < p) (he : e < 2 ^ 260)
    (hone : powModNat 260 g e p = 1) :
    ((g : Nat) : ZMod p) ^ e = 1 := by
  rw [castPow_eq p g e 1 hp he hone, Nat.cast_one]

/-- A Lucas certificate power check that rules out a smaller order
(`g^((p-1)/q) ≠ 1`). -/
theorem lucas_pow_ne_one (p g e : Nat) (hp : 1 < p) (he : e < 2 ^ 260)
    (hne : powModNat 260 g e p ≠ 1) :
    ((g : Nat) : ZMod p) ^ e ≠ 1 := by
  intro hcon
  rw [castPow_eq p g e (powModNat 260 g e p) (by omega) he rfl] at hcon
  have h1 : ((powModNat 260 g e p : Nat) : ZMod p) = ((1 : Nat) : ZMod p) := by
    simpa using hcon
  have h2 : powModNat 260 g e p % p = 1 % p :=
    (ZMod.natCast_eq_natCast_iff _ _ _).mp h1
  have hvp : powModNat 260 g e p < p := by
    rw [powModNat_correct 260 g e p (by omega) he]
    exact Nat.mod_lt _ (by omega)
  rw [Nat.mod_eq_of_lt hvp, Nat.mod_eq_of_lt hp] at h2
  exact hne h2

/-- A prime dividing a prime power equals the base. -/
theorem peel_pow {q r k : Nat} (hq : q.Prime) (hr : r.Prime) (h : q ∣ r ^ k) :
    q = r :=
  (Nat.prime_dvd_prime_iff_eq hq hr).mp (hq.dvd_of_dvd_pow h)

/-- A prime dividing a prime equals it. -/
theorem peel_prime {q r : Nat} (hq : q.Prime) (hr : r.Prime) (h : q ∣ r) :
    q = r :=
  (Nat.prime_dvd_prime_iff_eq hq hr).mp h

/-- Lucas certificate: `639533339` is prime (generator `2`). -/
theorem prime_639533339 : Nat.Prime 639533339 := by
  have hf_2 : Nat.Prime 2 := by norm_num
  have hf_229 : Nat.Prime 229 := by norm_num
  have hf_853 : Nat.Prime 853 := by norm_num
  have hf_1637 : Nat.Prime 1637 := by norm_num
  refine lucas_primality 639533339 (((2 : Nat)) : ZMod 639533339) ?_ ?_
  · exact lucas_pow_eq_one 639533339 2 (639533339 - 1) (by norm_num) (by decide) (by decide)
  · intro q hq hdvd
    have hfac : (639533339 - 1 : Nat) = 2 * (229 * (853 * (1637))) := by norm_num
    rw [hfac] at hdvd
    rcases (Nat.Prime.dvd_mul hq).mp hdvd with h | hdvd
    · have hqe : q = 2 := peel_prime hq hf_2 h
      subst hqe
      exact lucas_pow_ne_one 639533339 2 ((639533339 - 1) / 2) (by norm_num) (by decide) (by decide)
    rcases (Nat.Prime.dvd_mul hq).mp hdvd with h | hdvd
    · have hqe : q = 229 := peel_prime hq hf_229 h
      subst hqe
      exact lucas_pow_ne_one 639533339 2 ((639533339 - 1) / 229) (by norm_num) (by decide) (by decide)
    rcases (Nat.Prime.dvd_mul hq).mp hdvd with h | hdvd
    · have hqe : q = 853 := peel_prime hq hf_853 h
      subst hqe
      exact lucas_pow_ne_one 639533339 2 ((639533339 - 1) / 853) (by norm_num) (by decide) (by decide)
    have hqe : q = 1637 := peel_prime hq hf_1637 hdvd
    subst hqe
    exact lucas_pow_ne_one 639533339 2 ((639533339 - 1) / 1637) (by norm_num) (by decide) (by decide)

/-- Lucas certificate: `405928799` is prime (generator `22`). -/
theorem prime_405928799 : Nat.Prime 405928799 := by
  have hf_2 : Nat.Prime 2 := by norm_num
  have hf_11 : Nat.Prime 11 := by norm_num
  have hf_3691 : Nat.Prime 3691 := by norm_num
  have hf_4999 : Nat.Prime 4999 := by norm_num
  refine lucas_primality 405928799 (((22 : Nat)) : ZMod 405928799) ?_ ?_
  · exact lucas_pow_eq_one 405928799 22 (405928799 - 1) (by norm_num) (by decide) (by decide)
  · intro q hq hdvd
    have hfac : (405928799 - 1 : Nat) = 2 * (11 * (3691 * (4999))) := by norm_num
    rw [hfac] at hdvd
    rcases (Nat.Prime.dvd_mul hq).mp hdvd with h | hdvd
    · have hqe : q = 2 := peel_prime hq hf_2 h
      subst hqe
      exact lucas_pow_ne_one 405928799 22 ((405928799 - 1) / 2) (by norm_num) (by decide) (by decide)
    rcases (Nat.Prime.dvd_mul hq).mp hdvd with h | hdvd
    · have hqe : q = 11 := peel_prime hq hf_11 h
      subst hqe
      exact lucas_pow_ne_one 405928799 22 ((405928799 - 1) / 11) (by norm_num) (by decide) (by decide)
    rcases (Nat.Prime.dvd_mul hq).mp hdvd with h | hdvd
    · have hqe : q = 3691 := peel_prime hq hf_3691 h
      subst hqe
      exact lucas_pow_ne_one 405928799 22 ((405928799 - 1) / 3691) (by norm_num) (by decide) (by decide)
    have hqe : q = 4999 := peel_prime hq hf_4999 hdvd
    subst hqe
    exact lucas_pow_ne_one 405928799 22 ((405928799 - 1) / 4999) (by norm_num) (by decide) (by decide)

/-- Lucas certificate: `12048837557` is prime (generator `2`). -/
theorem prime_12048837557 : Nat.Prime 12048837557 := by
  have hf_2 : Nat.Prime 2 := by norm_num
  have hf_7 : Nat.Prime 7 := by norm_num
  have hf_661 : Nat.Prime 661 := by norm_num
  have hf_93001 : Nat.Prime 93001 := by norm_num
  refine lucas_primality 12048837557 (((2 : Nat)) : ZMod 12048837557) ?_ ?_
  · exact lucas_pow_eq_one 12048837557 2 (12048837557 - 1) (by norm_num) (by decide) (by decide)
  · intro q hq hdvd
    have hfac : (12048837557 - 1 : Nat) = 2 ^ 2 * (7 ^ 2 * (661 * (93001))) := by norm_num
    rw [hfac] at hdvd
    rcases (Nat.Prime.dvd_mul hq).mp hdvd with h | hdvd
    · have hqe : q = 2 := peel_pow hq hf_2 h
      subst hqe
      exact lucas_pow_ne_one 12048837557 2 ((12048837557 - 1) / 2) (by norm_num) (by decide) (by decide)
    rcases (Nat.Prime.dvd_mul hq).mp hdvd with h | hdvd
    · have hqe : q = 7 := peel_pow hq hf_7 h
      subst hqe
      exact lucas_pow_ne_one 12048837557 2 ((12048837557 - 1) / 7) (by norm_num) (by decide) (by decide)
    rcases (Nat.Prime.dvd_mul hq).mp hdvd with h | hdvd
    · have hqe : q = 661 := peel_prime hq hf_661 h
      subst hqe
      exact lucas_pow_ne_one 12048837557 2 ((12048837557 - 1) / 661) (by norm_num) (by decide) (by decide)
    have hqe : q = 93001 := peel_prime hq hf_93001 hdvd
    subst hqe
    exact lucas_pow_ne_one 12048837557 2 ((12048837557 - 1) / 93001) (by norm_num) (by decide) (by decide)

/-- Lucas certificate: `5156902474397` is prime (generator `2`). -/
theorem prime_5156902474397 : Nat.Prime 5156902474397 := by
  have hf_2 : Nat.Prime 2 := by norm_num
  have hf_107 : Nat.Prime 107 := by norm_num
  have hf_12048837557 : Nat.Prime 12048837557 := prime_12048837557
  refine lucas_primality 5156902474397 (((2 : Nat)) : ZMod 5156902474397) ?_ ?_
  · exact lucas_pow_eq_one 5156902474397 2 (5156902474397 - 1) (by norm_num) (by decide) (by decide)
  · intro q hq hdvd
    have hfac : (5156902474397 - 1 : Nat) = 2 ^ 2 * (107 * (12048837557)) := by norm_num
    rw [hfac] at hdvd
    rcases (Nat.Prime.dvd_mul hq).mp hdvd with h | hdvd
    · have hqe : q = 2 := peel_pow hq hf_2 h
      subst hqe
      exact lucas_pow_ne_one 5156902474397 2 ((5156902474397 - 1) / 2) (by norm_num) (by decide) (by decide)
    rcases (Nat.Prime.dvd_mul hq).mp hdvd with h | hdvd
    · have hqe : q = 107 := peel_prime hq hf_107 h
      subst hqe
      exact lucas_pow_ne_one 5156902474397 2 ((5156902474397 - 1) / 107) (by norm_num) (by decide) (by decide)
    have hqe : q = 12048837557 := peel_prime hq hf_12048837557 hdvd
    subst hqe
    exact lucas_pow_ne_one 5156902474397 2 ((5156902474397 - 1) / 12048837557) (by norm_num) (by decide) (by decide)

/-- Lucas certificate: `1670836401704629` is prime (generator `2`). -/
theorem prime_1670836401704629 : Nat.Prime 1670836401704629 := by
  have hf_2 : Nat.Prime 2 := by norm_num
  have hf_3 : Nat.Prime 3 := by norm_num
  have hf_5156902474397 : Nat.Prime 5156902474397 := prime_5156902474397
  refine lucas_primality 1670836401704629 (((2 : Nat)) : ZMod 1670836401704629) ?_ ?_
  · exact lucas_pow_eq_one 1670836401704629 2 (1670836401704629 - 1) (by norm_num) (by decide) (by decide)
  · intro q hq hdvd
    have hfac : (1670836401704629 - 1 : Nat) = 2 ^ 2 * (3 ^ 4 * (5156902474397)) := by norm_num
    rw [hfac] at hdvd
    rcases (Nat.Prime.dvd_mul hq).mp hdvd with h | hdvd
    · have hqe : q = 2 := peel_pow hq hf_2 h
      subst hqe
      exact lucas_pow_ne_one 1670836401704629 2 ((1670836401704629 - 1) / 2) (by norm_num) (by decide) (by decide)
    rcases (Nat.Prime.dvd_mul hq).mp hdvd with h | hdvd
    · have hqe : q = 3 := peel_pow hq hf_3 h
      subst hqe
      exact lucas_pow_ne_one 1670836401704629 2 ((1670836401704629 - 1) / 3) (by norm_num) (by decide) (by decide)
    have hqe : q = 5156902474397 := peel_prime hq hf_5156902474397 hdvd
    subst hqe
    exact lucas_pow_ne_one 1670836401704629 2 ((1670836401704629 - 1) / 5156902474397) (by norm_num) (by decide) (by decide)

/-- Lucas certificate: `65865678001877903` is prime (generator `5`). -/
theorem prime_65865678001877903 : Nat.Prime 65865678001877903 := by
  have hf_2 : Nat.Prime 2 := by norm_num
  have hf_83 : Nat.Prime 83 := by norm_num
  have hf_379 : Nat.Prime 379 := by norm_num
  have hf_1637 : Nat.Prime 1637 := by norm_num
  have hf_639533339 : Nat.Prime 639533339 := prime_639533339
  refine lucas_primality 65865678001877903 (((5 : Nat)) : ZMod 65865678001877903) ?_ ?_
  · exact lucas_pow_eq_one 65865678001877903 5 (65865678001877903 - 1) (by norm_num) (by decide) (by decide)
  · intro q hq hdvd
    have hfac : (65865678001877903 - 1 : Nat) = 2 * (83 * (379 * (1637 * (639533339)))) := by norm_num
    rw [hfac] at hdvd
    rcases (Nat.Prime.dvd_mul hq).mp hdvd with h | hdvd
    · have hqe : q = 2 := peel_prime hq hf_2 h
      subst hqe
      exact lucas_pow_ne_one 65865678001877903 5 ((65865678001877903 - 1) / 2) (by norm_num) (by decide) (by decide)
    rcases (Nat.Prime.dvd_mul hq).mp hdvd with h | hdvd
    · have hqe : q = 83 := peel_prime hq hf_83 h
      subst hqe
      exact lucas_pow_ne_one 65865678001877903 5 ((65865678001877903 - 1) / 83) (by norm_num) (by decide) (by decide)
    rcases (Nat.Prime.dvd_mul hq).mp hdvd with h | hdvd
    · have hqe : q = 379 := peel_prime hq hf_379 h
      subst hqe
      exact lucas_pow_ne_one 65865678001877903 5 ((65865678001877903 - 1) / 379) (by norm_num) (by decide) (by decide)
    rcases (Nat.Prime.dvd_mul hq).mp hdvd with h | hdvd
    · have hqe : q = 1637 := peel_prime hq hf_1637 h
      subst hqe
      exact lucas_pow_ne_one 65865678001877903 5 ((65865678001877903 - 1) / 1637) (by norm_num) (by decide) (by decide)
    have hqe : q = 639533339 := peel_prime hq hf_639533339 hdvd
    subst hqe
    exact lucas_pow_ne_one 65865678001877903 5 ((65865678001877903 - 1) / 639533339) (by norm_num) (by decide) (by decide)

/-- Lucas certificate: `13818364434197438864469338081` is prime (generator `3`). -/
theorem prime_13818364434197438864469338081 : Nat.Prime 13818364434197438864469338081 := by
  have hf_2 : Nat.Prime 2 := by norm_num
  have hf_5 : Nat.Prime 5 := by norm_num
  have hf_823 : Nat.Prime 823 := by norm_num
  have hf_1593227 : Nat.Prime 1593227 := by norm_num
  have hf_65865678001877903 : Nat.Prime 65865678001877903 := prime_65865678001877903
  refine lucas_primality 13818364434197438864469338081 (((3 : Nat)) : ZMod 13818364434197438864469338081) ?_ ?_
  · exact lucas_pow_eq_one 13818364434197438864469338081 3 (13818364434197438864469338081 - 1) (by norm_num) (by decide) (by decide)
  · intro q hq hdvd
    have hfac : (13818364434197438864469338081 - 1 : Nat) = 2 ^ 5 * (5 * (823 * (1593227 * (65865678001877903)))) := by norm_num
    rw [hfac] at hdvd
    rcases (Nat.Prime.dvd_mul hq).mp hdvd with h | hdvd
    · have hqe : q = 2 := peel_pow hq hf_2 h
      subst hqe
      exact lucas_pow_ne_one 13818364434197438864469338081 3 ((13818364434197438864469338081 - 1) / 2) (by norm_num) (by decide) (by decide)
    rcases (Nat.Prime.dvd_mul hq).mp hdvd with h | hdvd
    · have hqe : q = 5 := peel_prime hq hf_5 h
      subst hqe
      exact lucas_pow_ne_one 13818364434197438864469338081 3 ((13818364434197438864469338081 - 1) / 5) (by norm_num) (by decide) (by decide)
    rcases (Nat.Prime.dvd_mul hq).mp hdvd with h | hdvd
    · have hqe : q = 823 := peel_prime hq hf_823 h
      subst hqe
      exact lucas_pow_ne_one 13818364434197438864469338081 3 ((13818364434197438864469338081 - 1) / 823) (by norm_num) (by decide) (by decide)
    rcases (Nat.Prime.dvd_mul hq).mp hdvd with h | hdvd
    · have hqe : q = 1593227 := peel_prime hq hf_1593227 h
      subst hqe
      exact lucas_pow_ne_one 13818364434197438864469338081 3 ((13818364434197438864469338081 - 1) / 1593227) (by norm_num) (by decide) (by decide)
    have hqe : q = 65865678001877903 := peel_prime hq hf_65865678001877903 hdvd
    subst hqe
    exact lucas_pow_ne_one 13818364434197438864469338081 3 ((13818364434197438864469338081 - 1) / 65865678001877903) (by norm_num) (by decide) (by decide)

/-- Lucas certificate: `MODULUS_N` is prime (generator `5`). -/
theorem prime_MODULUS_N : Nat.Prime MODULUS_N := by
  have hplit : MODULUS_N = 21888242871839275222246405745257275088548364400416034343698204186575808495617 := by rfl
  rw [hplit]
  have hf_2 : Nat.Prime 2 := by norm_num
  have hf_3 : Nat.Prime 3 := by norm_num
  have hf_13 : Nat.Prime 13 := by norm_num
  have hf_29 : Nat.Prime 29 := by norm_num
  have hf_983 : Nat.Prime 983 := by norm_num
  have hf_11003 : Nat.Prime 11003 := by norm_num
  have hf_237073 : Nat.Prime 237073 := by norm_num
  have hf_405928799 : Nat.Prime 405928799 := prime_405928799
  have hf_1670836401704629 : Nat.Prime 1670836401704629 := prime_1670836401704629
  have hf_13818364434197438864469338081 : Nat.Prime 13818364434197438864469338081 := prime_13818364434197438864469338081
  refine lucas_primality 21888242871839275222246405745257275088548364400416034343698204186575808495617 (((5 : Nat)) : ZMod 21888242871839275222246405745257275088548364400416034343698204186575808495617) ?_ ?_
  · exact lucas_pow_eq_one 21888242871839275222246405745257275088548364400416034343698204186575808495617 5 (21888242871839275222246405745257275088548364400416034343698204186575808495617 - 1) (by norm_num) (by decide) (by decide)
  · intro q hq hdvd
    have hfac : (21888242871839275222246405745257275088548364400416034343698204186575808495617 - 1 : Nat) = 2 ^ 28 * (3 ^ 2 * (13 * (29 * (983 * (11003 * (237073 * (405928799 * (1670836401704629 * (13818364434197438864469338081))))))))) := by norm_num
    rw [hfac] at hdvd
    rcases (Nat.Prime.dvd_mul hq).mp hdvd with h | hdvd
    · have hqe : q = 2 := peel_pow hq hf_2 h
      subst hqe
      exact lucas_pow_ne_one 21888242871839275222246405745257275088548364400416034343698204186575808495617 5 ((21888242871839275222246405745257275088548364400416034343698204186575808495617 - 1) / 2) (by norm_num) (by decide) (by decide)
    rcases (Nat.Prime.dvd_mul hq).mp hdvd with h | hdvd
    · have hqe : q = 3 := peel_pow hq hf_3 h
      subst hqe
      exact lucas_pow_ne_one 21888242871839275222246405745257275088548364400416034343698204186575808495617 5 ((21888242871839275222246405745257275088548364400416034343698204186575808495617 - 1) / 3) (by norm_num) (by decide) (by decide)
    rcases (Nat.Prime.dvd_mul hq).mp hdvd with h | hdvd
    · have hqe : q = 13 := peel_prime hq hf_13 h
      subst hqe
      exact lucas_pow_ne_one 21888242871839275222246405745257275088548364400416034343698204186575808495617 5 ((21888242871839275222246405745257275088548364400416034343698204186575808495617 - 1) / 13) (by norm_num) (by decide) (by decide)
    rcases (Nat.Prime.dvd_mul hq).mp hdvd with h | hdvd
    · have hqe : q = 29 := peel_prime hq hf_29 h
      subst hqe
      exact lucas_pow_ne_one 21888242871839275222246405745257275088548364400416034343698204186575808495617 5 ((21888242871839275222246405745257275088548364400416034343698204186575808495617 - 1) / 29) (by norm_num) (by decide) (by decide)
    rcases (Nat.Prime.dvd_mul hq).mp hdvd with h | hdvd
    · have hqe : q = 983 := peel_prime hq hf_983 h
      subst hqe
      exact lucas_pow_ne_one 21888242871839275222246405745257275088548364400416034343698204186575808495617 5 ((21888242871839275222246405745257275088548364400416034343698204186575808495617 - 1) / 983) (by norm_num) (by decide) (by decide)
    rcases (Nat.Prime.dvd_mul hq).mp hdvd with h | hdvd
    · have hqe : q = 11003 := peel_prime hq hf_11003 h
      subst hqe
      exact lucas_pow_ne_one 21888242871839275222246405745257275088548364400416034343698204186575808495617 5 ((21888242871839275222246405745257275088548364400416034343698204186575808495617 - 1) / 11003) (by norm_num) (by decide) (by decide)
    rcases (Nat.Prime.dvd_mul hq).mp hdvd with h | hdvd
    · have hqe : q = 237073 := peel_prime hq hf_237073 h
      subst hqe
      exact lucas_pow_ne_one 21888242871839275222246405745257275088548364400416034343698204186575808495617 5 ((21888242871839275222246405745257275088548364400416034343698204186575808495617 - 1) / 237073) (by norm_num) (by decide) (by decide)
    rcases (Nat.Prime.dvd_mul hq).mp hdvd with h | hdvd
    · have hqe : q = 405928799 := peel_prime hq hf_405928799 h
      subst hqe
      exact lucas_pow_ne_one 21888242871839275222246405745257275088548364400416034343698204186575808495617 5 ((21888242871839275222246405745257275088548364400416034343698204186575808495617 - 1) / 405928799) (by norm_num) (by decide) (by decide)
    rcases (Nat.Prime.dvd_mul hq).mp hdvd with h | hdvd
    · have hqe : q = 1670836401704629 := peel_prime hq hf_1670836401704629 h
      subst hqe
      exact lucas_pow_ne_one 21888242871839275222246405745257275088548364400416034343698204186575808495617 5 ((21888242871839275222246405745257275088548364400416034343698204186575808495617 - 1) / 1670836401704629) (by norm_num) (by decide) (by decide)
    have hqe : q = 13818364434197438864469338081 := peel_prime hq hf_13818364434197438864469338081 hdvd
    subst hqe
    exact lucas_pow_ne_one 21888242871839275222246405745257275088548364400416034343698204186575808495617 5 ((21888242871839275222246405745257275088548364400416034343698204186575808495617 - 1) / 13818364434197438864469338081) (by norm_num) (by decide) (by decide)

/-! ### Correctness of `Field.modInv` (extended Euclid) and `Field.div` -/
/-- The magnitude of a difference of opposite-signed integers is the sum
of the magnitudes. -/
theorem natAbs_sub_of_mul_nonpos {a b : Int} (h : a * b ≤ 0) :
    (a - b).natAbs = a.natAbs + b.natAbs := by
  rcases le_or_lt a 0 with ha | ha <;> rcases le_or_lt b 0 with hb | hb
  · have hnn : (0 : Int) ≤ a * b := by
      have h1 : (0 : Int) ≤ -a * -b := mul_nonneg (by omega) (by omega)
      have h2 : -a * -b = a * b := by ring
      omega
    have h0 : a * b = 0 := le_antisymm h hnn
    rcases mul_eq_zero.mp h0 with h1 | h1 <;> omega
  · omega
  · omega
  · exact absurd (mul_pos ha hb) (by omega)

/-- Loop invariants of the extended-Euclid loop in `Field.modInv`.
Starting from a state with `0 ≤ newR < r`, the congruence
`t*c ≡ r (mod m)`, the determinant identity
`r*newT - newR*t = ±m`, opposite signs `t*newT ≤ 0` and `|t| ≤ |newT|`,
the loop terminates in a state `(rf, tf)` with `0 < rf ≤ r`,
`tf*c ≡ rf (mod m)`, `rf` dividing `m` exactly (`rf * nf = ±m`) and the
Bezout coefficient bounded by `|tf| ≤ |nf|`. -/
theorem egcdLoop_spec (m c : Int) (hm : 1 < m) :
    ∀ (fuel : Nat) (t newT r newR : Int),
    newR.natAbs < fuel →
    0 < r → 0 ≤ newR → newR < r →
    m ∣ (t * c - r) → m ∣ (newT * c - newR) →
    (r * newT - newR * t = m ∨ r * newT - newR * t = -m) →
    t * newT ≤ 0 → t.natAbs ≤ newT.natAbs →
    ∃ rf tf nf,
      egcdLoop fuel t newT r newR = (rf, tf)
      ∧ 0 < rf ∧ rf ≤ r
      ∧ (newR ≠ 0 → rf ≤ newR)
      ∧ m ∣ (tf * c - rf)
      ∧ (rf * nf = m ∨ rf * nf = -m)
      ∧ tf.natAbs ≤ nf.natAbs := by
  intro fuel
  induction fuel with
  | zero =>
    intro t newT r newR hfuel
    omega
  | succ f ih =>
    intro t newT r newR hfuel hr0 hnR0 hnRr hdt hdnT hdet hsgn habs
    by_cases hz : newR = 0
    · refine ⟨r, t, newT, ?_, hr0, le_refl r, fun hc => absurd hz hc, hdt, ?_, habs⟩
      · simp [egcdLoop, hz]
      · subst hz
        rcases hdet with hd | hd
        · left; calc r * newT = r * newT - 0 * t := by ring
            _ = m := hd
        · right; calc r * newT = r * newT - 0 * t := by ring
            _ = -m := hd
    · have hnRpos : 0 < newR := by omega
      have hq0 : 0 ≤ r.tdiv newR := Int.tdiv_nonneg (by omega) (by omega)
      have hq1 : 1 ≤ r.tdiv newR := by
        rw [Int.tdiv_eq_ediv (by omega) (by omega)]
        rw [Int.le_ediv_iff_mul_le hnRpos]
        omega
      have hrmod : r - r.tdiv newR * newR = r.tmod newR := by
        rw [Int.tmod_def]
        ring
      have hmod0 : 0 ≤ r.tmod newR := Int.tmod_nonneg newR (by omega)
      have hmodlt : r.tmod newR < newR := Int.tmod_lt_of_pos r hnRpos
      have hfuel2 : (r - r.tdiv newR * newR).natAbs < f := by
        rw [hrmod]
        omega
      have hdnT2 : m ∣ ((t - r.tdiv newR * newT) * c - (r - r.tdiv newR * newR)) := by
        have heq : (t - r.tdiv newR * newT) * c - (r - r.tdiv newR * newR)
            = (t * c - r) - r.tdiv newR * (newT * c - newR) := by ring
        rw [heq]
        exact dvd_sub hdt (Dvd.dvd.mul_left hdnT _)
      have hdet2 : newR * (t - r.tdiv newR * newT) - (r - r.tdiv newR * newR) * newT = m
          ∨ newR * (t - r.tdiv newR * newT) - (r - r.tdiv newR * newR) * newT = -m := by
        rcases hdet with hd | hd
        · right
          calc newR * (t - r.tdiv newR * newT) - (r - r.tdiv newR * newR) * newT
              = -(r * newT - newR * t) := by ring
            _ = -m := by rw [hd]
        · left
          calc newR * (t - r.tdiv newR * newT) - (r - r.tdiv newR * newR) * newT
              = -(r * newT - newR * t) := by ring
            _ = -(-m) := by rw [hd]
            _ = m := by ring
      have hsgn2 : newT * (t - r.tdiv newR * newT) ≤ 0 := by
        have h1 : 0 ≤ r.tdiv newR * (newT * newT) :=
          mul_nonneg hq0 (mul_self_nonneg newT)
        nlinarith [hsgn]
      have habs2 : newT.natAbs ≤ (t - r.tdiv newR * newT).natAbs := by
        have hop : t * (r.tdiv newR * newT) ≤ 0 := by
          have heq : t * (r.tdiv newR * newT) = r.tdiv newR * (t * newT) := by ring
          rw [heq]
          exact mul_nonpos_of_nonneg_of_nonpos hq0 hsgn
        rw [natAbs_sub_of_mul_nonpos hop, Int.natAbs_mul]
        have hqa : 1 ≤ (r.tdiv newR).natAbs := by omega
        have hge : newT.natAbs ≤ (r.tdiv newR).natAbs * newT.natAbs :=
          Nat.le_mul_of_pos_left _ (by omega)
        omega
      obtain ⟨rf, tf, nf, heq, h1, h2, h3, h4, h5, h6⟩ :=
        ih newT (t - r.tdiv newR * newT) newR (r - r.tdiv newR * newR)
          hfuel2 hnRpos (by omega) (by omega) hdnT hdnT2 hdet2 hsgn2 habs2
      refine ⟨rf, tf, nf, ?_, h1, by omega, fun _ => by omega, h4, h5, h6⟩
      rw [show egcdLoop (f + 1) t newT r newR
          = egcdLoop f newT (t - r.tdiv newR * newT) newR (r - r.tdiv newR * newR)
        from by simp [egcdLoop, hz]]
      exact heq

/-- The model of `Field.modInv` computes a genuine modular inverse for every nonzero
residue `0 < b < P`: the invertibility check passes (because `P` is
prime), the returned coefficient lies in `(0, P)`, and it satisfies
`t * b ≡ 1 (mod P)`. -/
theorem modInvFn_spec (b : Int) (hb0 : 0 < b) (hbP : b < PInt) :
    ∃ t, modInvFn b PInt = .ok t ∧ 0 < t ∧ t < PInt ∧ PInt ∣ (t * b - 1) := by
  have hm : (1 : Int) < PInt := by decide
  obtain ⟨rf, tf, nf, heq, hrf0, hrfr, hrfle, hdvd, hdet, habs⟩ :=
    egcdLoop_spec PInt b hm (b.natAbs + 1) 0 1 PInt b
      (by omega) (by omega) (by omega) hbP
      (by simp) (by simp)
      (by left; ring) (by simp) (by simp)
  have hrfb : rf ≤ b := hrfle (by omega)
  have hrdvd : rf ∣ PInt := by
    rcases hdet with hd | hd
    · exact ⟨nf, hd.symm⟩
    · exact ⟨-nf, by rw [mul_neg, hd]; ring⟩
  have hPdef : PInt = (MODULUS_N : Int) := rfl
  have hrf1 : rf = 1 := by
    have h1 : rf.natAbs ∣ PInt.natAbs := Int.natAbs_dvd_natAbs.mpr hrdvd
    have h2 : PInt.natAbs = MODULUS_N := rfl
    rw [h2] at h1
    rcases Nat.Prime.eq_one_or_self_of_dvd prime_MODULUS_N _ h1 with h3 | h3
    · omega
    · omega
  subst hrf1
  have hnfabs : tf.natAbs ≤ PInt.natAbs := by
    rcases hdet with hd | hd
    · have hnf : nf = PInt := by omega
      omega
    · have hnf : nf = -PInt := by omega
      omega
  have htf_notdvd : ¬ PInt ∣ tf := by
    intro hcon
    have h1 : PInt ∣ tf * b := Dvd.dvd.mul_right hcon b
    have h2 : PInt ∣ (tf * b - (tf * b - 1)) := dvd_sub h1 hdvd
    have h3 : tf * b - (tf * b - 1) = 1 := by ring
    rw [h3] at h2
    have := Int.le_of_dvd (by omega) h2
    omega
  have htf0 : tf ≠ 0 := by
    intro hcon
    exact htf_notdvd (by rw [hcon]; exact dvd_zero PInt)
  have htfP : tf ≠ PInt ∧ tf ≠ -PInt := by
    constructor <;> intro hcon <;> subst hcon
    · exact htf_notdvd dvd_rfl
    · exact htf_notdvd (dvd_neg.mp dvd_rfl)
  have htfbnd : -PInt < tf ∧ tf < PInt := by
    have h1 : tf = (tf.natAbs : Int) ∨ tf = -(tf.natAbs : Int) := Int.natAbs_eq tf
    omega
  refine ⟨if tf < 0 then tf + PInt else tf, ?_, ?_, ?_, ?_⟩
  · show modInvFn b PInt = _
    unfold modInvFn
    rw [heq]
    rw [if_neg (by omega : ¬ (1 : Int) < (1 : Int))]
  · split
    · omega
    · omega
  · split
    · omega
    · omega
  · split
    · have heq2 : (tf + PInt) * b - 1 = (tf * b - 1) + PInt * b := by ring
      rw [heq2]
      exact dvd_add hdvd (Dvd.intro b rfl)
    · exact hdvd

/-- C8.  `div` fails with the division-by-zero error exactly when the
divisor is the zero residue; for every nonzero divisor it succeeds,
returning `a * modinv(b, P) mod P` where `modinv` is the extended-Euclid
inverse (characterised by `inv * b ≡ 1 (mod P)` and `0 < inv < P`), and
multiplying the quotient back by `b` recovers `a` exactly. -/
theorem C8_div_inverse_roundtrip (a b : Int)
    (ha0 : 0 ≤ a) (haP : a < PInt) (hb0 : 0 ≤ b) (hbP : b < PInt) :
    (b = 0 → fieldDiv a b = .error "Division by zero")
    ∧ (b ≠ 0 → ∃ inv, modInvFn b PInt = .ok inv
        ∧ 0 < inv ∧ inv < PInt ∧ PInt ∣ (inv * b - 1)
        ∧ fieldDiv a b = .ok ((a * inv).tmod PInt)
        ∧ 0 ≤ (a * inv).tmod PInt ∧ (a * inv).tmod PInt < PInt
        ∧ fieldMul ((a * inv).tmod PInt) b = .ok a) := by
  refine ⟨fun hz => by rw [fieldDiv, if_pos hz], fun hnz => ?_⟩
  obtain ⟨inv, hinv, hi0, hiP, hidvd⟩ := modInvFn_spec b (by omega) hbP
  have hq0 : 0 ≤ (a * inv).tmod PInt :=
    Int.tmod_nonneg PInt (mul_nonneg ha0 hi0.le)
  have hqP : (a * inv).tmod PInt < PInt := Int.tmod_lt_of_pos _ PInt_pos
  have hdiv : fieldDiv a b = .ok ((a * inv).tmod PInt) := by
    rw [fieldDiv, if_neg hnz, hinv]
    exact fieldNewBig_reduced _ (by omega) hqP
  refine ⟨inv, hinv, hi0, hiP, hidvd, hdiv, hq0, hqP, ?_⟩
  have hqemod : (a * inv).tmod PInt = (a * inv) % PInt :=
    Int.tmod_eq_emod (mul_nonneg ha0 hi0.le) PInt_pos.le
  have hmul : ((a * inv).tmod PInt * b).tmod PInt = a := by
    have hnn : 0 ≤ (a * inv).tmod PInt * b := mul_nonneg hq0 hb0
    rw [Int.tmod_eq_emod hnn PInt_pos.le, hqemod]
    have hme : (a * inv % PInt * b) % PInt = (a * inv * b) % PInt := by
      rw [Int.mul_emod, Int.emod_emod_of_dvd _ dvd_rfl, ← Int.mul_emod]
    rw [hme]
    have hcong : (a * inv * b) % PInt = a % PInt := by
      have h1 : a * inv * b - a = a * (inv * b - 1) := by ring
      have h2 : PInt ∣ (a * inv * b - a) := by
        rw [h1]
        exact Dvd.dvd.mul_left hidvd a
      exact Int.ModEq.symm (Int.modEq_iff_dvd.mpr h2)
    rw [hcong]
    exact Int.emod_eq_of_lt ha0 haP
  rw [fieldMul, hmul]
  exact fieldNewBig_reduced a (by omega) haP

/-- C8 witness: `Field(100).div(Field(20))` is 5 and `5 * 20` recovers
100 (the repository's own test values). -/
theorem C8_div_inverse_roundtrip_witness :
    ((0 : Int) ≤ 100 ∧ (100 : Int) < PInt ∧ (0 : Int) ≤ 20 ∧ (20 : Int) < PInt
      ∧ (20 : Int) ≠ 0)
    ∧ fieldDiv 100 20 = Except.ok 5
    ∧ fieldMul 5 20 = Except.ok 100
    ∧ (∃ inv, modInvFn 20 PInt = .ok inv
        ∧ 0 < inv ∧ inv < PInt ∧ PInt ∣ (inv * 20 - 1)
        ∧ fieldDiv 100 20 = .ok ((100 * inv).tmod PInt)
        ∧ 0 ≤ (100 * inv).tmod PInt ∧ (100 * inv).tmod PInt < PInt
        ∧ fieldMul ((100 * inv).tmod PInt) 20 = .ok 100) :=
  ⟨⟨by decide, by decide, by decide, by decide, by decide⟩,
   by decide, by decide,
   (C8_div_inverse_roundtrip 100 20 (by decide) (by decide) (by decide)
     (by decide)).2 (by decide)⟩
